import Mathlib

/-!
Tailnet Key Authority state machine (`tka/state.go`).

A shallow embedding of `tka/state.go`: the `State` snapshot, its deep clone,
the parent check, the transition function `applyVerifiedAUM` and the checkpoint
validator `staticValidateCheckpoint`, followed by theorems about them.

Conventions of the embedding.

* A Go slice is a `Slice`: `Slice.nil` is the nil slice, `Slice.mk l` a non-nil
  slice holding `l` (possibly empty).  The three sequence fields of `State` are
  slices, so the absent-versus-empty distinction is kept.
* A byte string (`[]byte` used as a value: a secret, a node key, a key ID, a
  parent hash) is the list of its bytes; `bytes.Equal` is equality of contents.
  `State` is the state at this level, which is all that `applyVerifiedAUM`,
  `GetKey`, `checkDisablement` and `staticValidateCheckpoint` observe.
* `Clone` also decides whether each element of `DisablementSecrets` and
  `BannedNodekeys` is a nil or a non-nil byte slice.  `RawState` keeps every
  element as a Go `[]byte` value, nil-ness included, and `RawState.Clone` is
  the copy at that level; `State.Clone` is its image on contents.
* A returned `error` is a value of `Err`, one constructor per `errors.New` /
  `fmt.Errorf` site; a run-time panic is the outcome `Outcome.panic`.
* `AUM.Hash`, `Key.ID`, `Key.StaticValidate` and `disablementKDF` (argon2) are
  collaborators whose code is outside `state.go`; they are the fields of `Ext`.
-/

set_option autoImplicit false

namespace tka

/-! ## Data model -/

/-- One byte. -/
abbrev Byte := Fin 256

/-- Contents of a byte string. -/
abbrev Bytes := List Byte

/-- Go `bytes.Equal`: equality of contents. -/
def bytesEqual (a b : Bytes) : Bool := decide (a = b)

/-- Go `make([]byte, n)`: `n` zero bytes. -/
def makeBytes (n : Nat) : Bytes := List.replicate n 0

/-- Go `copy(dst, src)`: the first `min (len dst) (len src)` bytes of `dst`
are overwritten with those of `src`; the result is the new content of `dst`. -/
def copyBytes (dst src : Bytes) : Bytes := src.take dst.length ++ dst.drop src.length

/-- Go slice value: `nil` is the nil slice, `mk l` a non-nil slice. -/
inductive Slice (α : Type) where
  | nil : Slice α
  | mk (l : List α) : Slice α
deriving DecidableEq, Repr

namespace Slice

variable {α β : Type}

/-- Elements of a slice, as ranged over by `for _, x := range s`. -/
def elems : Slice α → List α
  | nil => []
  | mk l => l

/-- Go `len(s)`. -/
def len (s : Slice α) : Nat := s.elems.length

/-- Go `s == nil`. -/
def isNil : Slice α → Bool
  | nil => true
  | mk _ => false

/-- Go `append(s, x)`: always a non-nil slice. -/
def append (s : Slice α) (x : α) : Slice α := mk (s.elems ++ [x])

/-- Go `append(s[:idx], s[idx+1:]...)` for `idx < len(s)`: the element at
`idx` is spliced out.  (With `idx < len(s)` the slice is never nil.) -/
def spliceOut (s : Slice α) (idx : Nat) : Slice α :=
  match s with
  | nil => nil
  | mk l => mk (l.take idx ++ l.drop (idx + 1))

/-- Element-wise rebuild `out := make(.., len(s)); for i := range s { out[i] = f(s[i]) }`
guarded by `s != nil`, and the in-place loop `for i := range s { s[i] = f(s[i]) }`. -/
def mapElems (f : α → β) : Slice α → Slice β
  | nil => nil
  | mk l => mk (l.map f)

end Slice

/-- `AUMHash`: a `[32]byte` array. -/
structure AUMHash where
  bytes : Bytes
  size : bytes.length = 32
deriving DecidableEq

/-- Modelled from the spec: the `Key` type is declared outside `state.go`.  A
trusted key record is its public material, its voting weight and its optional
metadata mapping (`nil` map is `none`). -/
structure Key where
  Public : Bytes
  Votes : Nat
  Meta : Option (List (String × String))
deriving DecidableEq

/-- `State`: Tailnet Key Authority state at an instant in time. -/
structure State where
  LastAUMHash : Option AUMHash
  DisablementSecrets : Slice Bytes
  Keys : Slice Key
  BannedNodekeys : Slice Bytes
deriving DecidableEq

/-- Modelled from the spec: the `AUMKind` constants are declared outside
`state.go`.  The seven kinds `applyVerifiedAUM` dispatches on, and `other n`
for every other value of the kind byte. -/
inductive AUMKind where
  | AUMNoOp
  | AUMCheckpoint
  | AUMAddKey
  | AUMUpdateKey
  | AUMRemoveKey
  | AUMAddDenylistNodeKey
  | AUMRemoveDenylistNodeKey
  | other (n : Nat)
deriving DecidableEq

/-- Modelled from the spec: the `AUM` type is declared outside `state.go`.
These are the fields `applyVerifiedAUM` reads; pointer fields (`Key`, `State`,
`Votes`) and the `Meta` map are optional. -/
structure AUM where
  MessageKind : AUMKind
  PrevAUMHash : Bytes
  Key : Option Key
  KeyID : Bytes
  State : Option State
  Votes : Option Nat
  Meta : Option (List (String × String))
  NodeKey : Bytes
deriving DecidableEq

/-- Collaborators of `state.go` whose code lives elsewhere. -/
structure Ext where
  /-- `AUM.Hash`: blake2s digest of the encoded AUM. -/
  Hash : AUM → AUMHash
  /-- `Key.ID`, as a function of the key's public material. -/
  keyID : Bytes → Bytes
  /-- `Key.StaticValidate`: `none` for a valid key, else the error text. -/
  StaticValidate : Key → Option String
  /-- `disablementKDF`: argon2 with the fixed salt and parameters. -/
  disablementKDF : Bytes → Bytes

/-- Modelled from the spec: `Key.ID` is declared outside `state.go`; the key ID
is derived from the key's public material only. -/
def Key.ID (E : Ext) (k : Key) : Bytes := E.keyID k.Public

/-- Modelled from the spec: `Key.Clone` is declared outside `state.go`; it is a
deep copy of the key record. -/
def Key.Clone (k : Key) : Key :=
  { Public := copyBytes (makeBytes k.Public.length) k.Public, Votes := k.Votes, Meta := k.Meta }

/-- Errors returned by `state.go`, one constructor per construction site. -/
inductive Err where
  /-- `ErrNoSuchKey`: "key not found". -/
  | ErrNoSuchKey
  /-- "parent AUMHash mismatch". -/
  | parentMismatch
  /-- "no key to add provided". -/
  | noKeyToAdd
  /-- "key already exists". -/
  | keyAlreadyExists
  /-- "updated key fails validation: %v". -/
  | updatedKeyInvalid (cause : String)
  /-- "entry already exists". -/
  | entryAlreadyExists
  /-- "no such entry". -/
  | noSuchEntry
  /-- "unhandled message: %v". -/
  | unhandledMessage (kind : AUMKind)
  /-- "cannot specify a parent AUM". -/
  | cannotSpecifyParent
  /-- "at least one disablement secret required". -/
  | noDisablementSecret
  /-- "too many disablement secrets (%d, max %d)". -/
  | tooManyDisablementSecrets (n : Nat)
  /-- "disablement[%d]: invalid length (got %d, want %d)". -/
  | disablementInvalidLength (i got : Nat)
  /-- "disablement[%d]: duplicates disablement[%d]". -/
  | disablementDuplicate (i j : Nat)
  /-- "at least one key is required". -/
  | noKeys
  /-- "too many keys (%d, max %d)". -/
  | tooManyKeys (n : Nat)
  /-- "key[%d]: %v". -/
  | keyInvalid (i : Nat) (cause : String)
  /-- "key[%d]: duplicates key[%d]". -/
  | keyDuplicate (i j : Nat)
  /-- "too many node-key denylist entries (%d, max %d)". -/
  | tooManyDenylist (n : Nat)
  /-- "node-key entry %d duplicates entry %d". -/
  | denylistDuplicate (i j : Nat)
deriving DecidableEq

/-- Outcome of a call returning `(T, error)`: a value with a nil error, a
non-nil error, or a run-time panic. -/
inductive Outcome (α : Type) where
  | ok (a : α)
  | err (e : Err)
  | panic
deriving DecidableEq

/-! ## Operations -/

/-- Loop of `GetKey`: the first key whose ID equals `key`. -/
def getKeyLoop (E : Ext) (key : Bytes) : List Key → Except Err Key
  | [] => .error .ErrNoSuchKey
  | k :: ks => if bytesEqual (k.ID E) key then .ok k else getKeyLoop E key ks

/-- `State.GetKey`: the trusted key with the specified KeyID. -/
def State.GetKey (E : Ext) (s : State) (key : Bytes) : Except Err Key :=
  getKeyLoop E key s.Keys.elems

/-- Copy of one byte string: `make([]byte, len(b))` then `copy`. -/
def cloneBytes (b : Bytes) : Bytes := copyBytes (makeBytes b.length) b

/-- `State.Clone` on contents: an independent copy of the state, each byte
string standing for its bytes.  The copy that also tracks whether an element is
a nil or a non-nil byte slice is `RawState.Clone`. -/
def State.Clone (s : State) : State :=
  { LastAUMHash :=
      match s.LastAUMHash with
      | some h => some h
      | none => none
    DisablementSecrets := s.DisablementSecrets.mapElems cloneBytes
    Keys := s.Keys.mapElems Key.Clone
    BannedNodekeys := s.BannedNodekeys.mapElems cloneBytes }

/-- A Go `[]byte` value with its nil-ness: `Slice.nil` is the nil byte slice,
`Slice.mk bs` a non-nil byte slice holding `bs`. -/
abbrev ByteSlice := Slice Byte

/-- `State` with every element of `DisablementSecrets` and `BannedNodekeys`
kept as a Go `[]byte` value, so that a nil element and an empty non-nil element
are different states. -/
structure RawState where
  LastAUMHash : Option AUMHash
  DisablementSecrets : Slice ByteSlice
  Keys : Slice Key
  BannedNodekeys : Slice ByteSlice
deriving DecidableEq

/-- Copy of one element in `Clone`: `out[i] = make([]byte, len(s[i]))` then
`copy(out[i], s[i])`.  `make` returns a non-nil slice whatever `s[i]` is. -/
def cloneByteSlice (b : ByteSlice) : ByteSlice :=
  .mk (copyBytes (makeBytes b.len) b.elems)

/-- `State.Clone` with the nil-ness of every byte slice tracked: the three
sequences are rebuilt only when non-nil, each element of `DisablementSecrets`
and `BannedNodekeys` by `make` and `copy`, each key by `Key.Clone`. -/
def RawState.Clone (s : RawState) : RawState :=
  { LastAUMHash :=
      match s.LastAUMHash with
      | some h => some h
      | none => none
    DisablementSecrets := s.DisablementSecrets.mapElems cloneByteSlice
    Keys := s.Keys.mapElems Key.Clone
    BannedNodekeys := s.BannedNodekeys.mapElems cloneByteSlice }

/-- The state at the level of contents: every byte slice replaced by its bytes. -/
def RawState.contents (s : RawState) : State :=
  { LastAUMHash := s.LastAUMHash
    DisablementSecrets := s.DisablementSecrets.mapElems Slice.elems
    Keys := s.Keys
    BannedNodekeys := s.BannedNodekeys.mapElems Slice.elems }

/-- `State.cloneForUpdate`: like `Clone`, with `LastAUMHash` set to the hash
of the given update. -/
def State.cloneForUpdate (E : Ext) (s : State) (update : AUM) : State :=
  let out := s.Clone
  let aumHash := E.Hash update
  { out with LastAUMHash := some aumHash }

/-- Constant `disablementLength`. -/
def disablementLength : Nat := 32

/-- `State.checkDisablement`: true for a valid disablement secret. -/
def State.checkDisablement (E : Ext) (s : State) (secret : Bytes) : Bool :=
  let derived := E.disablementKDF secret
  s.DisablementSecrets.elems.any (fun candidate => bytesEqual derived candidate)

/-- `State.parentMatches`: whether an AUM can chain to the current state. -/
def State.parentMatches (s : State) (update : AUM) : Bool :=
  match s.LastAUMHash with
  | none => true
  | some h => bytesEqual h.bytes update.PrevAUMHash

/-- Search loop `idx := -1; for i := range xs { if p xs[i] { idx = i; break } }`,
started at index `i`; `none` stands for `idx < 0`. -/
def findIdxFrom {α : Type} (p : α → Bool) : Nat → List α → Option Nat
  | _, [] => none
  | i, x :: xs => if p x then some i else findIdxFrom p (i + 1) xs

/-- `State.applyVerifiedAUM`: the new state computed from a verified update. -/
def State.applyVerifiedAUM (E : Ext) (s : State) (update : AUM) : Outcome State :=
  if !s.parentMatches update then .err .parentMismatch
  else
    match update.MessageKind with
    | .AUMNoOp =>
      let out := s.cloneForUpdate E update
      .ok out
    | .AUMCheckpoint =>
      match update.State with
      | none => .panic
      | some st => .ok (st.cloneForUpdate E update)
    | .AUMAddKey =>
      match update.Key with
      | none => .err .noKeyToAdd
      | some key =>
        match s.GetKey E (key.ID E) with
        | .ok _ => .err .keyAlreadyExists
        | .error _ =>
          let out := s.cloneForUpdate E update
          .ok { out with Keys := out.Keys.append key }
    | .AUMUpdateKey =>
      match s.GetKey E update.KeyID with
      | .error e => .err e
      | .ok k =>
        let k := match update.Votes with
          | some v => { k with Votes := v }
          | none => k
        let k := match update.Meta with
          | some m => { k with Meta := some m }
          | none => k
        match E.StaticValidate k with
        | some cause => .err (.updatedKeyInvalid cause)
        | none =>
          let out := s.cloneForUpdate E update
          .ok { out with
                Keys := out.Keys.mapElems
                  (fun x => if bytesEqual (x.ID E) update.KeyID then k else x) }
    | .AUMRemoveKey =>
      match findIdxFrom (fun k => bytesEqual update.KeyID (k.ID E)) 0 s.Keys.elems with
      | none => .err .ErrNoSuchKey
      | some idx =>
        let out := s.cloneForUpdate E update
        .ok { out with Keys := out.Keys.spliceOut idx }
    | .AUMAddDenylistNodeKey =>
      if s.BannedNodekeys.elems.any (fun nk => bytesEqual update.NodeKey nk) then
        .err .entryAlreadyExists
      else
        let out := s.cloneForUpdate E update
        .ok { out with BannedNodekeys := out.BannedNodekeys.append update.NodeKey }
    | .AUMRemoveDenylistNodeKey =>
      match findIdxFrom (fun nk => bytesEqual update.NodeKey nk) 0 s.BannedNodekeys.elems with
      | none => .err .noSuchEntry
      | some idx =>
        let out := s.cloneForUpdate E update
        .ok { out with BannedNodekeys := out.BannedNodekeys.spliceOut idx }
    | .other n => .err (.unhandledMessage (.other n))

/-- Constant `maxDisablementSecrets`. -/
def maxDisablementSecrets : Nat := 32

/-- Constant `maxKeys`. -/
def maxKeys : Nat := 512

/-- Constant `maxDenylistEntries`. -/
def maxDenylistEntries : Nat := 64

/-- Inner duplicate loop `for j, y := range all { if i == j { continue }; if same x y { return j } }`,
started at index `j`: the first `j ≠ i` whose element duplicates `x`. -/
def dupScan {α : Type} (same : α → α → Bool) (i : Nat) (x : α) : Nat → List α → Option Nat
  | _, [] => none
  | j, y :: ys =>
    if i = j then dupScan same i x (j + 1) ys
    else if same x y then some j
    else dupScan same i x (j + 1) ys

/-- Outer loop over the disablement secrets, started at index `i`. -/
def checkSecretsFrom (all : List Bytes) : Nat → List Bytes → Option Err
  | _, [] => none
  | i, ds :: rest =>
    if ds.length ≠ disablementLength then some (.disablementInvalidLength i ds.length)
    else
      match dupScan bytesEqual i ds 0 all with
      | some j => some (.disablementDuplicate i j)
      | none => checkSecretsFrom all (i + 1) rest

/-- Outer loop over the keys, started at index `i`. -/
def checkKeysFrom (E : Ext) (all : List Key) : Nat → List Key → Option Err
  | _, [] => none
  | i, k :: rest =>
    match E.StaticValidate k with
    | some cause => some (.keyInvalid i cause)
    | none =>
      match dupScan (fun a b => bytesEqual (a.ID E) (b.ID E)) i k 0 all with
      | some j => some (.keyDuplicate i j)
      | none => checkKeysFrom E all (i + 1) rest

/-- Outer loop over the node-key denylist, started at index `i`. -/
def checkDenylistFrom (all : List Bytes) : Nat → List Bytes → Option Err
  | _, [] => none
  | i, nk :: rest =>
    match dupScan bytesEqual i nk 0 all with
    | some j => some (.denylistDuplicate i j)
    | none => checkDenylistFrom all (i + 1) rest

/-- `State.staticValidateCheckpoint`: `none` when the state is well-formed for
inclusion in a checkpoint AUM, else the first error. -/
def State.staticValidateCheckpoint (E : Ext) (s : State) : Option Err :=
  if s.LastAUMHash.isSome then some .cannotSpecifyParent
  else if s.DisablementSecrets.len = 0 then some .noDisablementSecret
  else if s.DisablementSecrets.len > maxDisablementSecrets then
    some (.tooManyDisablementSecrets s.DisablementSecrets.len)
  else
    match checkSecretsFrom s.DisablementSecrets.elems 0 s.DisablementSecrets.elems with
    | some e => some e
    | none =>
      if s.Keys.len = 0 then some .noKeys
      else if s.Keys.len > maxKeys then some (.tooManyKeys s.Keys.len)
      else
        match checkKeysFrom E s.Keys.elems 0 s.Keys.elems with
        | some e => some e
        | none =>
          if s.BannedNodekeys.len > maxDenylistEntries then
            some (.tooManyDenylist s.BannedNodekeys.len)
          else checkDenylistFrom s.BannedNodekeys.elems 0 s.BannedNodekeys.elems

/-- The common shape of the three validation loops of `staticValidateCheckpoint`:
a per-element check, then the duplicate scan against every other element. -/
def checkLoop {α : Type} (elemErr : Nat → α → Option Err) (same : α → α → Bool)
    (dupErr : Nat → Nat → Err) (all : List α) : Nat → List α → Option Err
  | _, [] => none
  | i, x :: rest =>
    match elemErr i x with
    | some e => some e
    | none =>
      match dupScan same i x 0 all with
      | some j => some (dupErr i j)
      | none => checkLoop elemErr same dupErr all (i + 1) rest

/-! ## Notions used in the statements -/

/-- The key `k` with `Votes` replaced by `votes` when present and `Meta`
replaced by `md` when present; an absent field leaves the old value. -/
def Key.overlay (k : Key) (votes : Option Nat) (md : Option (List (String × String))) : Key :=
  { Public := k.Public
    Votes := match votes with
      | some v => v
      | none => k.Votes
    Meta := match md with
      | some m => some m
      | none => k.Meta }

/-- The size limits of the data model: 1 to 32 disablement secrets, 1 to 512
keys, at most 64 banned node keys. -/
def State.withinLimits (s : State) : Prop :=
  (1 ≤ s.DisablementSecrets.len ∧ s.DisablementSecrets.len ≤ 32) ∧
  (1 ≤ s.Keys.len ∧ s.Keys.len ≤ 512) ∧
  s.BannedNodekeys.len ≤ 64

/-- Uniqueness within a state: keys have pairwise distinct KeyIDs, disablement
secrets are pairwise distinct, banned node keys are pairwise distinct. -/
def State.unique (E : Ext) (s : State) : Prop :=
  (s.Keys.elems.map (Key.ID E)).Nodup ∧ s.DisablementSecrets.elems.Nodup ∧
  s.BannedNodekeys.elems.Nodup

instance (s : State) : Decidable s.withinLimits := by
  unfold State.withinLimits
  infer_instance

instance (E : Ext) (s : State) : Decidable (s.unique E) := by
  unfold State.unique
  infer_instance

/-- Result of a successful `applyVerifiedAUM`, by message kind: what the new
sequences are in terms of the old state and the AUM. -/
def applied (E : Ext) (s : State) (a : AUM) (s' : State) : Prop :=
  match a.MessageKind with
  | .AUMNoOp =>
    s'.DisablementSecrets = s.DisablementSecrets ∧ s'.Keys = s.Keys ∧
      s'.BannedNodekeys = s.BannedNodekeys
  | .AUMCheckpoint =>
    ∃ cs, a.State = some cs ∧ s'.DisablementSecrets = cs.DisablementSecrets ∧
      s'.Keys = cs.Keys ∧ s'.BannedNodekeys = cs.BannedNodekeys
  | .AUMAddKey =>
    ∃ k, a.Key = some k ∧ (∀ k' ∈ s.Keys.elems, k'.ID E ≠ k.ID E) ∧
      s'.DisablementSecrets = s.DisablementSecrets ∧ s'.Keys = .mk (s.Keys.elems ++ [k]) ∧
      s'.BannedNodekeys = s.BannedNodekeys
  | .AUMUpdateKey =>
    ∃ k, k ∈ s.Keys.elems ∧ k.ID E = a.KeyID ∧
      E.StaticValidate (k.overlay a.Votes a.Meta) = none ∧
      s'.DisablementSecrets = s.DisablementSecrets ∧
      s'.Keys = s.Keys.mapElems
        (fun x => if x.ID E = a.KeyID then k.overlay a.Votes a.Meta else x) ∧
      s'.BannedNodekeys = s.BannedNodekeys
  | .AUMRemoveKey =>
    ∃ pre k post, s.Keys.elems = pre ++ k :: post ∧ k.ID E = a.KeyID ∧
      (∀ x ∈ pre, x.ID E ≠ a.KeyID) ∧
      s'.DisablementSecrets = s.DisablementSecrets ∧ s'.Keys = .mk (pre ++ post) ∧
      s'.BannedNodekeys = s.BannedNodekeys
  | .AUMAddDenylistNodeKey =>
    a.NodeKey ∉ s.BannedNodekeys.elems ∧
      s'.DisablementSecrets = s.DisablementSecrets ∧ s'.Keys = s.Keys ∧
      s'.BannedNodekeys = .mk (s.BannedNodekeys.elems ++ [a.NodeKey])
  | .AUMRemoveDenylistNodeKey =>
    ∃ pre post, s.BannedNodekeys.elems = pre ++ a.NodeKey :: post ∧ a.NodeKey ∉ pre ∧
      s'.DisablementSecrets = s.DisablementSecrets ∧ s'.Keys = s.Keys ∧
      s'.BannedNodekeys = .mk (pre ++ post)
  | .other _ => False

/-- Index `i` offends in the sequence `all`: its element fails the per-element
check `good`, or the element at some other index duplicates it. -/
def offends {α : Type} (good : α → Prop) (dup : α → α → Prop) (all : List α) (i : Nat) : Prop :=
  ∃ x, all[i]? = some x ∧ (¬ good x ∨ ∃ j y, j ≠ i ∧ all[j]? = some y ∧ dup x y)

/-- Index `i` is a disablement secret of the wrong length or one equal to the
secret at another index. -/
def secretOffends (l : List Bytes) (i : Nat) : Prop :=
  offends (fun ds : Bytes => ds.length = 32) (fun a b => a = b) l i

/-- Index `i` is a key failing `StaticValidate` or sharing its KeyID with the
key at another index. -/
def keyOffends (E : Ext) (l : List Key) (i : Nat) : Prop :=
  offends (fun k : Key => E.StaticValidate k = none) (fun a b => a.ID E = b.ID E) l i

/-- Index `i` is a banned node key equal to the one at another index. -/
def entryOffends (l : List Bytes) (i : Nat) : Prop :=
  offends (fun _ : Bytes => True) (fun a b => a = b) l i

/-- The disablement secrets pass their stage of the validation: between 1 and
32 of them and no offending index. -/
def secretsFine (s : State) : Prop :=
  1 ≤ s.DisablementSecrets.len ∧ s.DisablementSecrets.len ≤ 32 ∧
  ∀ i, ¬ secretOffends s.DisablementSecrets.elems i

/-- The keys pass their stage of the validation: between 1 and 512 of them and
no offending index. -/
def keysFine (E : Ext) (s : State) : Prop :=
  1 ≤ s.Keys.len ∧ s.Keys.len ≤ 512 ∧ ∀ i, ¬ keyOffends E s.Keys.elems i

/-! ## Concrete instances on which the model is evaluated -/

/-- A concrete stand-in for `AUM.Hash`: 32 bytes computed from the parent hash. -/
def demoHash (a : AUM) : AUMHash :=
  ⟨(a.PrevAUMHash.map (fun b => b + 1) ++ List.replicate 32 9).take 32, by simp⟩

/-- A concrete set of collaborators: the key ID is the public material itself,
a key is valid when its weight is at most 4096, and the KDF pads to 32 bytes. -/
def demoExt : Ext :=
  { Hash := demoHash
    keyID := fun pub => pub
    StaticValidate := fun k => if k.Votes > 4096 then some "excessive key weight" else none
    disablementKDF := fun secret => (secret ++ List.replicate 32 0).take 32 }

/-- Hash of the last applied AUM in the sample states. -/
def demoParent : AUMHash := ⟨List.replicate 32 1, rfl⟩

/-- A stale parent hash, different from `demoParent`. -/
def demoStale : Bytes := List.replicate 32 2

/-- Sample key `K`. -/
def keyK : Key := { Public := [1], Votes := 1, Meta := none }

/-- Sample key `K2`. -/
def keyK2 : Key := { Public := [2], Votes := 1, Meta := none }

/-- Sample disablement verifier. -/
def demoSecret : Bytes := List.replicate 32 5

/-- Sample state: one disablement verifier, the key `K`, no denylist. -/
def stateK : State :=
  { LastAUMHash := some demoParent
    DisablementSecrets := .mk [demoSecret]
    Keys := .mk [keyK]
    BannedNodekeys := .nil }

/-- Sample state: as `stateK` with the keys `K, K2`. -/
def stateKK2 : State := { stateK with Keys := .mk [keyK, keyK2] }

/-- An AUM of the given kind and parent with every other field empty. -/
def bareAUM (kind : AUMKind) (prev : Bytes) : AUM :=
  { MessageKind := kind, PrevAUMHash := prev, Key := none, KeyID := [], State := none,
    Votes := none, Meta := none, NodeKey := [] }

/-- `AddKey(K2)` chained to `demoParent`. -/
def addK2 : AUM := { bareAUM .AUMAddKey demoParent.bytes with Key := some keyK2 }

/-- `AddKey` without a key, chained to a stale parent. -/
def staleAddNoKey : AUM := bareAUM .AUMAddKey demoStale

/-- An AUM of an unknown kind, chained to a stale parent. -/
def staleUnknown : AUM := bareAUM (.other 200) demoStale

/-- The pre-genesis state: nothing applied yet, every sequence nil. -/
def emptyState : State :=
  { LastAUMHash := none, DisablementSecrets := .nil, Keys := .nil, BannedNodekeys := .nil }

/-- `AddKey` without a key, chained to `demoParent`. -/
def addNoKey : AUM := bareAUM .AUMAddKey demoParent.bytes

/-- `UpdateKey(keyId = K.id, votes = 5)` chained to `demoParent`. -/
def updateKVotes : AUM :=
  { bareAUM .AUMUpdateKey demoParent.bytes with KeyID := [1], Votes := some 5 }

/-- `RemoveKey(keyId = K.id)` chained to `demoParent`. -/
def removeK : AUM := { bareAUM .AUMRemoveKey demoParent.bytes with KeyID := [1] }

/-- A checkpoint state: one verifier, the keys `K2, K`, one banned node key. -/
def checkpointState : State :=
  { LastAUMHash := none
    DisablementSecrets := .mk [List.replicate 32 6]
    Keys := .mk [keyK2, keyK]
    BannedNodekeys := .mk [[7, 7]] }

/-- A `Checkpoint` AUM carrying `checkpointState`, chained to `demoParent`. -/
def checkpointAUM : AUM :=
  { bareAUM .AUMCheckpoint demoParent.bytes with State := some checkpointState }

/-- A checkpoint state whose only disablement secret has length zero. -/
def zeroSecretState : State := { checkpointState with DisablementSecrets := .mk [[]] }

/-- The `i`-th of many distinct sample keys: a two-byte public material. -/
def manyKey (i : Nat) : Key :=
  { Public := [Fin.ofNat (i / 256), Fin.ofNat (i % 256)], Votes := 1, Meta := none }

/-- The 512 distinct sample keys. -/
def manyKeys : List Key := (List.range 512).map manyKey

/-- The 64 distinct sample node keys, one byte each. -/
def manyNodeKeys : List Bytes := (List.range 64).map (fun i => [Fin.ofNat i])

/-- Sample state with the given keys. -/
def stateWithKeys (ks : List Key) : State := { stateK with Keys := .mk ks }

/-- Sample state with the given banned node keys. -/
def stateWithDeny (nks : List Bytes) : State := { stateK with BannedNodekeys := .mk nks }

/-- `AddDenylistNodeKey` of a two-byte node key, chained to `demoParent`. -/
def addDeny : AUM := { bareAUM .AUMAddDenylistNodeKey demoParent.bytes with NodeKey := [0, 0] }

/-- The state expected after `removeK` is applied to `stateKK2`. -/
def afterRemoveK : State :=
  { stateKK2 with LastAUMHash := some (demoHash removeK), Keys := .mk [keyK2] }

/-- The state expected after `addK2` is applied to `stateK`. -/
def afterAddK2 : State := { stateKK2 with LastAUMHash := some (demoHash addK2) }

/-- `RemoveDenylistNodeKey` of the node key of `addDeny`, chained to `demoParent`. -/
def removeDeny : AUM :=
  { bareAUM .AUMRemoveDenylistNodeKey demoParent.bytes with NodeKey := [0, 0] }

/-- `RemoveDenylistNodeKey` of the node key of `addDeny`, chained to `addDeny`. -/
def removeDenyNext : AUM :=
  { bareAUM .AUMRemoveDenylistNodeKey (demoHash addDeny).bytes with NodeKey := [0, 0] }

/-- Sample state banning the node keys `[3]`, `[0, 0]`, `[4]`. -/
def stateBanned : State := stateWithDeny [[3], [0, 0], [4]]

/-- `NoOp` chained to `demoParent`. -/
def noOp : AUM := bareAUM .AUMNoOp demoParent.bytes

/-- An AUM of an unknown kind, chained to `demoParent`. -/
def unknownAUM : AUM := bareAUM (.other 200) demoParent.bytes

/-- A secret whose derived verifier under `demoExt` is `demoSecret`. -/
def goodSecret : Bytes := List.replicate 32 5

/-- A secret whose derived verifier under `demoExt` is not `demoSecret`. -/
def wrongSecret : Bytes := [1, 2, 3]

/-- A state wrong at every stage: a parent is present, secret 0 equals secret
2, secret 1 is too short, there is no key, and the denylist repeats an entry. -/
def allWrongState : State :=
  { LastAUMHash := some demoParent
    DisablementSecrets := .mk [demoSecret, [1], demoSecret]
    Keys := .mk []
    BannedNodekeys := .mk [[7], [7]] }

/-- As `allWrongState`, without a parent. -/
def secretsWrongState : State := { allWrongState with LastAUMHash := none }

/-- A second key with the public material, hence the KeyID, of `K`. -/
def keyKdup : Key := { Public := [1], Votes := 7, Meta := none }

/-- Sample state whose two keys share one KeyID. -/
def dupState : State := stateWithKeys [keyK, keyKdup]

/-- The state expected after `removeK` is applied to `dupState`. -/
def afterRemoveDup : State :=
  { dupState with LastAUMHash := some (demoHash removeK), Keys := .mk [keyKdup] }

/-- The Go value `State{BannedNodekeys: [][]byte{nil}}`: one banned node key,
which is a nil byte slice; every other field nil. -/
def nilEntryState : RawState :=
  { LastAUMHash := none, DisablementSecrets := .nil, Keys := .nil,
    BannedNodekeys := .mk [.nil] }

/-- The Go value `State{BannedNodekeys: [][]byte{{}}}`: one banned node key,
which is an empty non-nil byte slice; every other field nil. -/
def emptyEntryState : RawState :=
  { LastAUMHash := none, DisablementSecrets := .nil, Keys := .nil,
    BannedNodekeys := .mk [.mk []] }

/-! ## Basic facts about the embedding -/

theorem bytesEqual_iff (a b : Bytes) : bytesEqual a b = true ↔ a = b := by
  simp [bytesEqual]

theorem bytesEqual_false_iff (a b : Bytes) : bytesEqual a b = false ↔ a ≠ b := by
  simp [bytesEqual]

theorem cloneBytes_eq (b : Bytes) : cloneBytes b = b := by
  simp [cloneBytes, copyBytes, makeBytes]

theorem keyClone_eq (k : Key) : k.Clone = k := by
  cases k
  simp [Key.Clone, copyBytes, makeBytes]

theorem Slice.mapElems_eq_self {α : Type} (f : α → α) (hf : ∀ x, f x = x) (s : Slice α) :
    s.mapElems f = s := by
  cases s with
  | nil => rfl
  | mk l =>
    have : l.map f = l := by
      induction l with
      | nil => rfl
      | cons x xs ih => simp [hf, ih]
    simp [Slice.mapElems, this]

theorem stateClone_eq (s : State) : s.Clone = s := by
  cases s with
  | mk h ds ks bn =>
    simp only [State.Clone, Slice.mapElems_eq_self cloneBytes cloneBytes_eq,
      Slice.mapElems_eq_self Key.Clone keyClone_eq]
    cases h <;> rfl

theorem cloneForUpdate_eq (E : Ext) (s : State) (a : AUM) :
    s.cloneForUpdate E a =
      { LastAUMHash := some (E.Hash a), DisablementSecrets := s.DisablementSecrets,
        Keys := s.Keys, BannedNodekeys := s.BannedNodekeys } := by
  simp [State.cloneForUpdate, stateClone_eq]

theorem getKeyLoop_error (E : Ext) (key : Bytes) (l : List Key) (e : Err)
    (h : getKeyLoop E key l = .error e) : e = .ErrNoSuchKey ∧ ∀ k ∈ l, k.ID E ≠ key := by
  induction l with
  | nil =>
    simp only [getKeyLoop, Except.error.injEq] at h
    exact ⟨h.symm, by simp⟩
  | cons x xs ih =>
    simp only [getKeyLoop] at h
    by_cases hx : bytesEqual (x.ID E) key = true
    · simp [hx] at h
    · simp only [hx, Bool.false_eq_true, if_false] at h
      obtain ⟨h1, h2⟩ := ih h
      refine ⟨h1, ?_⟩
      intro k hk
      rcases List.mem_cons.mp hk with rfl | hk
      · intro hc
        exact hx ((bytesEqual_iff _ _).mpr hc)
      · exact h2 k hk

theorem getKeyLoop_ok (E : Ext) (key : Bytes) (l : List Key) (k : Key)
    (h : getKeyLoop E key l = .ok k) :
    ∃ pre post, l = pre ++ k :: post ∧ k.ID E = key ∧ ∀ x ∈ pre, x.ID E ≠ key := by
  induction l with
  | nil => simp [getKeyLoop] at h
  | cons x xs ih =>
    simp only [getKeyLoop] at h
    by_cases hx : bytesEqual (x.ID E) key = true
    · simp only [hx, if_true, Except.ok.injEq] at h
      subst h
      exact ⟨[], xs, rfl, (bytesEqual_iff _ _).mp hx, by simp⟩
    · simp only [hx, Bool.false_eq_true, if_false] at h
      obtain ⟨pre, post, h1, h2, h3⟩ := ih h
      refine ⟨x :: pre, post, by simp [h1], h2, ?_⟩
      intro y hy
      rcases List.mem_cons.mp hy with rfl | hy
      · intro hc
        exact hx ((bytesEqual_iff _ _).mpr hc)
      · exact h3 y hy

theorem getKeyLoop_error_of_forall (E : Ext) (key : Bytes) (l : List Key)
    (h : ∀ k ∈ l, k.ID E ≠ key) : getKeyLoop E key l = .error .ErrNoSuchKey := by
  cases hr : getKeyLoop E key l with
  | error e => rw [(getKeyLoop_error E key l e hr).1]
  | ok k =>
    obtain ⟨pre, post, h1, h2, _⟩ := getKeyLoop_ok E key l k hr
    exact absurd h2 (h k (by simp [h1]))

theorem getKeyLoop_ok_of_exists (E : Ext) (key : Bytes) (l : List Key)
    (h : ∃ k ∈ l, k.ID E = key) : ∃ k, getKeyLoop E key l = .ok k := by
  cases hr : getKeyLoop E key l with
  | ok k => exact ⟨k, rfl⟩
  | error e =>
    obtain ⟨k, hk, hid⟩ := h
    exact absurd hid ((getKeyLoop_error E key l e hr).2 k hk)

theorem findIdxFrom_none {α : Type} (p : α → Bool) (i : Nat) (l : List α) :
    findIdxFrom p i l = none ↔ ∀ x ∈ l, p x = false := by
  induction l generalizing i with
  | nil => simp [findIdxFrom]
  | cons x xs ih =>
    by_cases hx : p x = true
    · simp [findIdxFrom, hx]
    · simp [findIdxFrom, hx, ih]

theorem findIdxFrom_some {α : Type} (p : α → Bool) (i j : Nat) (l : List α)
    (h : findIdxFrom p i l = some j) :
    ∃ pre x post, l = pre ++ x :: post ∧ j = i + pre.length ∧ p x = true ∧
      ∀ y ∈ pre, p y = false := by
  induction l generalizing i with
  | nil => simp [findIdxFrom] at h
  | cons x xs ih =>
    by_cases hx : p x = true
    · simp only [findIdxFrom, hx, if_true, Option.some.injEq] at h
      exact ⟨[], x, xs, rfl, by simp [h], hx, by simp⟩
    · simp only [findIdxFrom, hx, Bool.false_eq_true, if_false] at h
      obtain ⟨pre, y, post, h1, h2, h3, h4⟩ := ih (i + 1) h
      refine ⟨x :: pre, y, post, by simp [h1], by simp [h2]; omega, h3, ?_⟩
      intro z hz
      rcases List.mem_cons.mp hz with rfl | hz
      · simpa using hx
      · exact h4 z hz

theorem splice_append_cons {α : Type} (pre post : List α) (x : α) :
    (pre ++ x :: post).take pre.length ++ (pre ++ x :: post).drop (pre.length + 1) =
      pre ++ post := by
  simp [List.take_append_eq_append_take, List.drop_append_eq_append_drop]

theorem parentMatches_eq_false_iff (s : State) (a : AUM) :
    s.parentMatches a = false ↔ ∃ h, s.LastAUMHash = some h ∧ a.PrevAUMHash ≠ h.bytes := by
  unfold State.parentMatches
  cases hl : s.LastAUMHash with
  | none => simp
  | some h0 =>
    simp only [bytesEqual_false_iff, Option.some.injEq, exists_eq_left']
    exact ⟨fun h => fun hc => h hc.symm, fun h => fun hc => h hc.symm⟩

theorem applyVerifiedAUM_of_mismatch (E : Ext) (s : State) (a : AUM)
    (h : s.parentMatches a = false) : s.applyVerifiedAUM E a = .err .parentMismatch := by
  simp [State.applyVerifiedAUM, h]

theorem applyVerifiedAUM_mismatch_only (E : Ext) (s : State) (a : AUM)
    (h : s.applyVerifiedAUM E a = .err .parentMismatch) : s.parentMatches a = false := by
  cases hp : s.parentMatches a with
  | false => rfl
  | true =>
    exfalso
    unfold State.applyVerifiedAUM at h
    simp only [hp, Bool.not_true, Bool.false_eq_true, if_false] at h
    split at h
    · cases h
    · split at h <;> cases h
    · split at h
      · cases h
      · split at h <;> cases h
    · split at h
      · next e he =>
        have := (getKeyLoop_error E _ _ e he).1
        subst this
        cases h
      · split at h <;> cases h
    · split at h <;> cases h
    · split at h <;> cases h
    · split at h <;> cases h
    · cases h

theorem getKeyLoop_of_first (E : Ext) (key : Bytes) (pre post : List Key) (k : Key)
    (hid : k.ID E = key) (hpre : ∀ x ∈ pre, x.ID E ≠ key) :
    getKeyLoop E key (pre ++ k :: post) = .ok k := by
  induction pre with
  | nil => simp [getKeyLoop, (bytesEqual_iff _ _).mpr hid]
  | cons x xs ih =>
    have hx : bytesEqual (x.ID E) key = false :=
      (bytesEqual_false_iff _ _).mpr (hpre x (by simp))
    simp only [List.cons_append, getKeyLoop, hx, Bool.false_eq_true, if_false]
    exact ih (fun y hy => hpre y (by simp [hy]))

theorem exists_first {α : Type} (p : α → Prop) [DecidablePred p] (l : List α)
    (h : ∃ x ∈ l, p x) :
    ∃ pre x post, l = pre ++ x :: post ∧ p x ∧ ∀ y ∈ pre, ¬ p y := by
  induction l with
  | nil => simp at h
  | cons a as ih =>
    by_cases ha : p a
    · exact ⟨[], a, as, rfl, ha, by simp⟩
    · have h' : ∃ x ∈ as, p x := by
        obtain ⟨x, hx, hpx⟩ := h
        rcases List.mem_cons.mp hx with rfl | hx
        · exact absurd hpx ha
        · exact ⟨x, hx, hpx⟩
      obtain ⟨pre, x, post, h1, h2, h3⟩ := ih h'
      refine ⟨a :: pre, x, post, by simp [h1], h2, ?_⟩
      intro y hy
      rcases List.mem_cons.mp hy with rfl | hy
      · exact ha
      · exact h3 y hy

theorem findIdxFrom_of_first {α : Type} (p : α → Bool) (i : Nat) (pre post : List α) (x : α)
    (hx : p x = true) (hpre : ∀ y ∈ pre, p y = false) :
    findIdxFrom p i (pre ++ x :: post) = some (i + pre.length) := by
  induction pre generalizing i with
  | nil => simp [findIdxFrom, hx]
  | cons y ys ih =>
    have hy : p y = false := hpre y (by simp)
    simp only [List.cons_append, findIdxFrom, hy, Bool.false_eq_true, if_false,
      List.length_cons]
    have h := ih (i + 1) (fun z hz => hpre z (by simp [hz]))
    have e : i + 1 + ys.length = i + (ys.length + 1) := by omega
    rw [e] at h
    exact h

/-! ### The validation loops -/

theorem dupScan_past {α : Type} (same : α → α → Bool) (i : Nat) (x : α) (j : Nat) (l : List α)
    (hij : i < j) : dupScan same i x j l = none ↔ ∀ y ∈ l, same x y = false := by
  induction l generalizing j with
  | nil => simp [dupScan]
  | cons y ys ih =>
    have hne : ¬ i = j := by omega
    by_cases hy : same x y = true
    · simp [dupScan, hne, hy]
    · simp only [Bool.not_eq_true] at hy
      simp [dupScan, hne, hy, ih (j + 1) (by omega)]

theorem dupScan_skip {α : Type} (same : α → α → Bool) (x : α) (j : Nat)
    (pre : List α) (y0 : α) (post : List α) :
    dupScan same (j + pre.length) x j (pre ++ y0 :: post) = none ↔
      (∀ y ∈ pre, same x y = false) ∧ (∀ y ∈ post, same x y = false) := by
  induction pre generalizing j with
  | nil => simp [dupScan, dupScan_past same j x (j + 1) post (by omega)]
  | cons p ps ih =>
    have hne : ¬ j + (ps.length + 1) = j := by omega
    have e : j + (ps.length + 1) = (j + 1) + ps.length := by omega
    by_cases hp : same x p = true
    · simp [dupScan, hne, hp]
    · simp only [Bool.not_eq_true] at hp
      simp only [List.cons_append, List.length_cons, dupScan, hne, if_false, hp,
        Bool.false_eq_true, List.mem_cons, forall_eq_or_imp, true_and]
      rw [e]
      exact ih (j + 1)

theorem checkLoop_none {α : Type} (elemErr : Nat → α → Option Err) (same : α → α → Bool)
    (dupErr : Nat → Nat → Err) (good : α → Prop)
    (hgood : ∀ i x, elemErr i x = none ↔ good x)
    (hsym : ∀ x y, same x y = same y x) (pre rest : List α) :
    checkLoop elemErr same dupErr (pre ++ rest) pre.length rest = none ↔
      (∀ x ∈ rest, good x) ∧ (∀ x ∈ rest, ∀ y ∈ pre, same x y = false) ∧
        rest.Pairwise (fun x y => same x y = false) := by
  induction rest generalizing pre with
  | nil => simp [checkLoop]
  | cons x r ih =>
    have hstep : checkLoop elemErr same dupErr (pre ++ x :: r) pre.length (x :: r) = none ↔
        elemErr pre.length x = none ∧ dupScan same pre.length x 0 (pre ++ x :: r) = none ∧
          checkLoop elemErr same dupErr (pre ++ x :: r) (pre.length + 1) r = none := by
      simp only [checkLoop]
      cases h1 : elemErr pre.length x with
      | some e => simp
      | none =>
        cases h2 : dupScan same pre.length x 0 (pre ++ x :: r) with
        | some j => simp
        | none => simp
    have hd := dupScan_skip same x 0 pre x r
    simp only [Nat.zero_add] at hd
    have hi := ih (pre ++ [x])
    simp only [List.append_assoc, List.singleton_append, List.length_append,
      List.length_singleton] at hi
    rw [hstep, hgood, hd, hi]
    simp only [List.mem_cons, forall_eq_or_imp, List.pairwise_cons, List.mem_append,
      List.not_mem_nil, or_false]
    constructor
    · rintro ⟨h1, ⟨h2, h3⟩, h4, h5, h6⟩
      exact ⟨⟨h1, h4⟩, ⟨h2, fun z hz y hy => h5 z hz y (Or.inl hy)⟩, h3, h6⟩
    · rintro ⟨⟨h1, h4⟩, ⟨h2, h5⟩, h3, h6⟩
      refine ⟨h1, ⟨h2, h3⟩, h4, ?_, h6⟩
      intro z hz y hy
      rcases hy with hy | rfl
      · exact h5 z hz y hy
      · rw [hsym]
        exact h3 z hz

theorem checkSecretsFrom_eq (all : List Bytes) (i : Nat) (rest : List Bytes) :
    checkSecretsFrom all i rest =
      checkLoop (fun i ds => if ds.length ≠ disablementLength
          then some (.disablementInvalidLength i ds.length) else none)
        bytesEqual .disablementDuplicate all i rest := by
  induction rest generalizing i with
  | nil => rfl
  | cons x r ih =>
    simp only [checkSecretsFrom, checkLoop, ih]
    by_cases hx : x.length = disablementLength <;> simp [hx]

theorem checkKeysFrom_eq (E : Ext) (all : List Key) (i : Nat) (rest : List Key) :
    checkKeysFrom E all i rest =
      checkLoop (fun i k => match E.StaticValidate k with
          | some cause => some (.keyInvalid i cause)
          | none => none)
        (fun a b => bytesEqual (a.ID E) (b.ID E)) .keyDuplicate all i rest := by
  induction rest generalizing i with
  | nil => rfl
  | cons x r ih =>
    simp only [checkKeysFrom, checkLoop, ih]
    cases hx : E.StaticValidate x <;> simp

theorem checkDenylistFrom_eq (all : List Bytes) (i : Nat) (rest : List Bytes) :
    checkDenylistFrom all i rest =
      checkLoop (fun _ _ => none) bytesEqual .denylistDuplicate all i rest := by
  induction rest generalizing i with
  | nil => rfl
  | cons x r ih => simp only [checkDenylistFrom, checkLoop, ih]

theorem bytesEqual_comm (a b : Bytes) : bytesEqual a b = bytesEqual b a := by
  simp only [bytesEqual]
  by_cases h : a = b
  · simp [h]
  · have h' : ¬ b = a := fun hc => h hc.symm
    simp [h, h']

theorem checkSecretsFrom_none (l : List Bytes) :
    checkSecretsFrom l 0 l = none ↔ (∀ ds ∈ l, ds.length = 32) ∧ l.Nodup := by
  have h := checkLoop_none (fun i ds => if ds.length ≠ disablementLength
      then some (.disablementInvalidLength i ds.length) else none)
    bytesEqual .disablementDuplicate (fun ds => ds.length = 32)
    (by intro i x; simp [disablementLength]) bytesEqual_comm [] l
  simp only [List.nil_append, List.length_nil, List.not_mem_nil, false_imp_iff,
    implies_true, true_and, bytesEqual_false_iff] at h
  rw [checkSecretsFrom_eq]
  exact h

theorem checkKeysFrom_none (E : Ext) (l : List Key) :
    checkKeysFrom E l 0 l = none ↔
      (∀ k ∈ l, E.StaticValidate k = none) ∧ (l.map (Key.ID E)).Nodup := by
  have h := checkLoop_none (fun i k => match E.StaticValidate k with
          | some cause => some (.keyInvalid i cause)
          | none => none)
    (fun a b => bytesEqual (a.ID E) (b.ID E)) .keyDuplicate
    (fun k => E.StaticValidate k = none)
    (by intro i x; cases hx : E.StaticValidate x <;> simp [hx])
    (fun a b => bytesEqual_comm _ _) [] l
  simp only [List.nil_append, List.length_nil, List.not_mem_nil, false_imp_iff,
    implies_true, true_and, bytesEqual_false_iff] at h
  rw [checkKeysFrom_eq, h, List.Nodup, List.pairwise_map]

theorem checkDenylistFrom_none (l : List Bytes) :
    checkDenylistFrom l 0 l = none ↔ l.Nodup := by
  have h := checkLoop_none (fun _ _ => none) bytesEqual .denylistDuplicate (fun _ => True)
    (by intro i x; simp) bytesEqual_comm [] l
  simp only [List.nil_append, List.length_nil, List.not_mem_nil, false_imp_iff,
    implies_true, true_and, bytesEqual_false_iff] at h
  rw [checkDenylistFrom_eq]
  exact h

theorem staticValidateCheckpoint_none_iff (E : Ext) (s : State) :
    s.staticValidateCheckpoint E = none ↔
      s.LastAUMHash = none ∧
      (1 ≤ s.DisablementSecrets.len ∧ s.DisablementSecrets.len ≤ 32 ∧
        (∀ ds ∈ s.DisablementSecrets.elems, ds.length = 32) ∧
        s.DisablementSecrets.elems.Nodup) ∧
      (1 ≤ s.Keys.len ∧ s.Keys.len ≤ 512 ∧
        (∀ k ∈ s.Keys.elems, E.StaticValidate k = none) ∧
        (s.Keys.elems.map (Key.ID E)).Nodup) ∧
      (s.BannedNodekeys.len ≤ 64 ∧ s.BannedNodekeys.elems.Nodup) := by
  unfold State.staticValidateCheckpoint
  cases hl : s.LastAUMHash with
  | some h => simp
  | none =>
    simp only [Option.isSome_none, Bool.false_eq_true, if_false, true_and,
      maxDisablementSecrets, maxKeys, maxDenylistEntries]
    by_cases h1 : s.DisablementSecrets.len = 0
    · simp [h1]
    by_cases h2 : s.DisablementSecrets.len > 32
    · simp only [h1, if_false, h2, if_true]
      constructor
      · intro h; cases h
      · rintro ⟨⟨_, h, _⟩, _⟩; omega
    simp only [h1, if_false, h2]
    cases h3 : checkSecretsFrom s.DisablementSecrets.elems 0 s.DisablementSecrets.elems with
    | some e =>
      have : ¬ ((∀ ds ∈ s.DisablementSecrets.elems, ds.length = 32) ∧
          s.DisablementSecrets.elems.Nodup) := by
        rw [← checkSecretsFrom_none, h3]; simp
      constructor
      · intro h; cases h
      · rintro ⟨⟨_, _, h, h'⟩, _⟩; exact absurd ⟨h, h'⟩ this
    | none =>
      have hds := (checkSecretsFrom_none _).mp h3
      by_cases h4 : s.Keys.len = 0
      · simp [h4]
      by_cases h5 : s.Keys.len > 512
      · simp only [h4, if_false, h5, if_true]
        constructor
        · intro h; cases h
        · rintro ⟨_, ⟨_, h, _⟩, _⟩; omega
      simp only [h4, if_false, h5]
      cases h6 : checkKeysFrom E s.Keys.elems 0 s.Keys.elems with
      | some e =>
        have : ¬ ((∀ k ∈ s.Keys.elems, E.StaticValidate k = none) ∧
            (s.Keys.elems.map (Key.ID E)).Nodup) := by
          rw [← checkKeysFrom_none, h6]; simp
        constructor
        · intro h; cases h
        · rintro ⟨_, ⟨_, _, h, h'⟩, _⟩; exact absurd ⟨h, h'⟩ this
      | none =>
        have hks := (checkKeysFrom_none E _).mp h6
        by_cases h7 : s.BannedNodekeys.len > 64
        · simp only [h7, if_true]
          constructor
          · intro h; cases h
          · rintro ⟨_, _, h, _⟩; omega
        simp only [h7, if_false, checkDenylistFrom_none]
        constructor
        · intro h
          exact ⟨⟨by omega, by omega, hds.1, hds.2⟩, ⟨by omega, by omega, hks.1, hks.2⟩,
            by omega, h⟩
        · rintro ⟨_, _, _, h⟩; exact h

/-! ### Inversion of a successful apply -/

theorem any_bytesEqual_false (x : Bytes) (l : List Bytes) :
    l.any (fun y => bytesEqual x y) = false ↔ x ∉ l := by
  induction l with
  | nil => simp
  | cons y ys ih =>
    simp only [List.any_cons, Bool.or_eq_false_iff, ih, List.mem_cons, not_or,
      bytesEqual_false_iff]

theorem applyVerifiedAUM_ok_inv (E : Ext) (s : State) (a : AUM) (s' : State)
    (h : s.applyVerifiedAUM E a = .ok s') : applied E s a s' := by
  unfold State.applyVerifiedAUM at h
  simp only [cloneForUpdate_eq] at h
  unfold applied
  split at h
  · cases h
  · split at h
    · next hk => cases h; simp
    · next hk =>
      split at h
      · cases h
      · next cs hcs => cases h; simp [hcs]
    · next hk =>
      split at h
      · cases h
      · next key hkey =>
        split at h
        · cases h
        · next e he =>
          cases h
          have := (getKeyLoop_error E _ _ e he).2
          simp [hkey, Slice.append]
          exact this
    · next hk =>
      split at h
      · cases h
      · next k hg =>
        obtain ⟨pre, post, hdec, hid, hpre⟩ := getKeyLoop_ok E _ _ k hg
        have hov : (match a.Meta with
            | some m => { (match a.Votes with
                            | some v => { k with Votes := v }
                            | none => k) with Meta := some m }
            | none => (match a.Votes with
                            | some v => { k with Votes := v }
                            | none => k)) = k.overlay a.Votes a.Meta := by
          cases a.Votes <;> cases a.Meta <;> rfl
        simp only [hov] at h
        split at h
        · cases h
        · next hv =>
          cases h
          refine ⟨k, by simp [hdec], hid, hv, rfl, ?_, rfl⟩
          simp only [bytesEqual_iff]
    · next hk =>
      split at h
      · cases h
      · next idx hidx =>
        cases h
        obtain ⟨pre, x, post, hdec, hj, hx, hpre⟩ := findIdxFrom_some _ _ _ _ hidx
        have hid : x.ID E = a.KeyID := ((bytesEqual_iff _ _).mp hx).symm
        refine ⟨pre, x, post, hdec, hid, ?_, rfl, ?_, rfl⟩
        · intro y hy hc
          have := hpre y hy
          rw [bytesEqual_false_iff] at this
          exact this hc.symm
        · cases hs : s.Keys with
          | nil => simp [hs, Slice.elems] at hdec
          | mk l =>
            simp only [hs, Slice.elems] at hdec
            simp only [Slice.spliceOut, hdec, hj, Nat.zero_add, splice_append_cons]
    · next hk =>
      split at h
      · cases h
      · next hany =>
        cases h
        simp only [Bool.not_eq_true] at hany
        exact ⟨(any_bytesEqual_false _ _).mp hany, rfl, rfl, rfl⟩
    · next hk =>
      split at h
      · cases h
      · next idx hidx =>
        cases h
        obtain ⟨pre, x, post, hdec, hj, hx, hpre⟩ := findIdxFrom_some _ _ _ _ hidx
        have hid : a.NodeKey = x := (bytesEqual_iff _ _).mp hx
        subst hid
        refine ⟨pre, post, hdec, ?_, rfl, rfl, ?_⟩
        · intro hc
          have := hpre _ hc
          simp [bytesEqual] at this
        · cases hs : s.BannedNodekeys with
          | nil => simp [hs, Slice.elems] at hdec
          | mk l =>
            simp only [hs, Slice.elems] at hdec
            simp only [Slice.spliceOut, hdec, hj, Nat.zero_add, splice_append_cons]
    · cases h

/-! ### Successful additions -/

theorem applyVerifiedAUM_addKey_ok (E : Ext) (s : State) (a : AUM) (k : Key)
    (hk : a.MessageKind = .AUMAddKey) (hp : s.parentMatches a = true) (hkey : a.Key = some k)
    (hall : ∀ k' ∈ s.Keys.elems, k'.ID E ≠ k.ID E) :
    s.applyVerifiedAUM E a =
      .ok { LastAUMHash := some (E.Hash a), DisablementSecrets := s.DisablementSecrets,
            Keys := .mk (s.Keys.elems ++ [k]), BannedNodekeys := s.BannedNodekeys } := by
  have hg := getKeyLoop_error_of_forall E (k.ID E) s.Keys.elems hall
  simp [State.applyVerifiedAUM, hp, hk, hkey, State.GetKey, hg, cloneForUpdate_eq,
    Slice.append]

theorem applyVerifiedAUM_addDenylist_ok (E : Ext) (s : State) (a : AUM)
    (hk : a.MessageKind = .AUMAddDenylistNodeKey) (hp : s.parentMatches a = true)
    (hn : a.NodeKey ∉ s.BannedNodekeys.elems) :
    s.applyVerifiedAUM E a =
      .ok { LastAUMHash := some (E.Hash a), DisablementSecrets := s.DisablementSecrets,
            Keys := s.Keys,
            BannedNodekeys := .mk (s.BannedNodekeys.elems ++ [a.NodeKey]) } := by
  have hany := (any_bytesEqual_false a.NodeKey s.BannedNodekeys.elems).mpr hn
  simp [State.applyVerifiedAUM, hp, hk, hany, cloneForUpdate_eq, Slice.append]

theorem applyVerifiedAUM_addKey_grows (E : Ext) (s : State) (a : AUM) (k : Key)
    (hk : a.MessageKind = .AUMAddKey) (hp : s.parentMatches a = true) (hkey : a.Key = some k)
    (hall : ∀ k' ∈ s.Keys.elems, k'.ID E ≠ k.ID E) :
    ∃ s', s.applyVerifiedAUM E a = .ok s' ∧ s'.Keys.len = s.Keys.len + 1 := by
  refine ⟨_, applyVerifiedAUM_addKey_ok E s a k hk hp hkey hall, ?_⟩
  simp [Slice.len, Slice.elems]

theorem applyVerifiedAUM_addDenylist_grows (E : Ext) (s : State) (a : AUM)
    (hk : a.MessageKind = .AUMAddDenylistNodeKey) (hp : s.parentMatches a = true)
    (hn : a.NodeKey ∉ s.BannedNodekeys.elems) :
    ∃ s', s.applyVerifiedAUM E a = .ok s' ∧
      s'.BannedNodekeys.len = s.BannedNodekeys.len + 1 := by
  refine ⟨_, applyVerifiedAUM_addDenylist_ok E s a hk hp hn, ?_⟩
  simp [Slice.len, Slice.elems]

theorem Slice.elems_mk {α : Type} (l : List α) : (Slice.mk l).elems = l := rfl

theorem Slice.len_mapElems {α β : Type} (f : α → β) (s : Slice α) :
    (s.mapElems f).len = s.len := by
  cases s <;> simp [Slice.mapElems, Slice.len, Slice.elems]

theorem overlay_ID (E : Ext) (k : Key) (votes : Option Nat)
    (md : Option (List (String × String))) : (k.overlay votes md).ID E = k.ID E := rfl

theorem map_ID_update (E : Ext) (id : Bytes) (k' : Key) (hk' : k'.ID E = id) (l : List Key) :
    (l.map (fun x => if x.ID E = id then k' else x)).map (Key.ID E) = l.map (Key.ID E) := by
  induction l with
  | nil => rfl
  | cons x xs ih =>
    simp only [List.map_cons, ih, List.cons.injEq, and_true]
    by_cases hx : x.ID E = id
    · simp [hx, hk']
    · simp [hx]

/-! ### Denylist removal -/

theorem applyVerifiedAUM_removeDenylist_ok (E : Ext) (s : State) (a : AUM)
    (pre post : List Bytes)
    (hk : a.MessageKind = .AUMRemoveDenylistNodeKey) (hp : s.parentMatches a = true)
    (hdec : s.BannedNodekeys.elems = pre ++ a.NodeKey :: post) (hpre : a.NodeKey ∉ pre) :
    s.applyVerifiedAUM E a =
      .ok { LastAUMHash := some (E.Hash a), DisablementSecrets := s.DisablementSecrets,
            Keys := s.Keys, BannedNodekeys := .mk (pre ++ post) } := by
  have hf : findIdxFrom (fun nk => bytesEqual a.NodeKey nk) 0 s.BannedNodekeys.elems =
      some pre.length := by
    rw [hdec]
    have := findIdxFrom_of_first (fun nk => bytesEqual a.NodeKey nk) 0 pre post a.NodeKey
      ((bytesEqual_iff _ _).mpr rfl)
      (fun y hy => (bytesEqual_false_iff _ _).mpr (fun hc => hpre (hc ▸ hy)))
    simpa using this
  cases hs : s.BannedNodekeys with
  | nil => simp [hs, Slice.elems] at hdec
  | mk l =>
    simp only [hs, Slice.elems] at hdec hf
    simp only [State.applyVerifiedAUM, hp, hk, Bool.not_true, Bool.false_eq_true, if_false,
      hs, Slice.elems, hf, cloneForUpdate_eq, Slice.spliceOut]
    rw [hdec, splice_append_cons]

theorem parentMatches_of_prev (s : State) (a : AUM) (h : AUMHash)
    (hl : s.LastAUMHash = some h) (hprev : a.PrevAUMHash = h.bytes) :
    s.parentMatches a = true := by
  simp [State.parentMatches, hl, hprev, bytesEqual]

theorem any_bytesEqual_true (x : Bytes) (l : List Bytes) :
    l.any (fun y => bytesEqual x y) = true ↔ x ∈ l := by
  rw [← Bool.not_eq_false, any_bytesEqual_false]
  exact not_not

/-! ### The validation loops, by index -/

theorem dupScan_none_idx {α : Type} (same : α → α → Bool) (i : Nat) (x : α) (j0 : Nat)
    (l : List α) :
    dupScan same i x j0 l = none ↔
      ∀ m y, l[m]? = some y → j0 + m ≠ i → same x y = false := by
  induction l generalizing j0 with
  | nil => simp [dupScan]
  | cons y ys ih =>
    constructor
    · intro h m y' hm hne
      by_cases hi : i = j0
      · subst hi
        simp only [dupScan, if_true] at h
        cases m with
        | zero => exact absurd (by omega) hne
        | succ m =>
          simp only [List.getElem?_cons_succ] at hm
          exact (ih (i + 1)).mp h m y' hm (by omega)
      · simp only [dupScan, hi, if_false] at h
        by_cases hs : same x y = true
        · simp [hs] at h
        · simp only [hs, Bool.false_eq_true, if_false] at h
          cases m with
          | zero =>
            simp only [List.getElem?_cons_zero, Option.some.injEq] at hm
            subst hm
            simpa using hs
          | succ m =>
            simp only [List.getElem?_cons_succ] at hm
            exact (ih (j0 + 1)).mp h m y' hm (by omega)
    · intro h
      have hrec : dupScan same i x (j0 + 1) ys = none := by
        rw [ih (j0 + 1)]
        intro m y' hm hne
        exact h (m + 1) y' (by simpa using hm) (by omega)
      by_cases hi : i = j0
      · subst hi
        simp only [dupScan, if_true]
        exact hrec
      · have hy : same x y = false := h 0 y (by simp) (by omega)
        simp only [dupScan, hi, if_false, hy, Bool.false_eq_true]
        exact hrec

theorem dupScan_some_idx {α : Type} (same : α → α → Bool) (i : Nat) (x : α) (j0 j : Nat)
    (l : List α) (h : dupScan same i x j0 l = some j) :
    ∃ m y, j = j0 + m ∧ l[m]? = some y ∧ j ≠ i ∧ same x y = true ∧
      ∀ m' y', m' < m → l[m']? = some y' → j0 + m' ≠ i → same x y' = false := by
  induction l generalizing j0 with
  | nil => simp [dupScan] at h
  | cons y ys ih =>
    have hstep : dupScan same i x (j0 + 1) ys = some j → (j0 ≠ i → same x y = false) →
        ∃ m y0, j = j0 + m ∧ (y :: ys)[m]? = some y0 ∧ j ≠ i ∧ same x y0 = true ∧
          ∀ m' y', m' < m → (y :: ys)[m']? = some y' → j0 + m' ≠ i → same x y' = false := by
      intro hr hfirst
      obtain ⟨m, y0, hj, hm, hne, hs, hmin⟩ := ih (j0 + 1) hr
      refine ⟨m + 1, y0, by omega, by simpa using hm, hne, hs, ?_⟩
      intro m' y' hlt hm' hne'
      cases m' with
      | zero =>
        simp only [List.getElem?_cons_zero, Option.some.injEq] at hm'
        subst hm'
        exact hfirst (by omega)
      | succ m' =>
        simp only [List.getElem?_cons_succ] at hm'
        exact hmin m' y' (by omega) hm' (by omega)
    by_cases hi : i = j0
    · subst hi
      simp only [dupScan, if_true] at h
      exact hstep h (fun hc => absurd rfl hc)
    · simp only [dupScan, hi, if_false] at h
      by_cases hs : same x y = true
      · simp only [hs, if_true, Option.some.injEq] at h
        refine ⟨0, y, by omega, by simp, ?_, hs, ?_⟩
        · omega
        · intro m' y' hlt
          omega
      · simp only [hs, Bool.false_eq_true, if_false] at h
        exact hstep h (fun _ => by simpa using hs)

theorem checkLoop_none_idx {α : Type} (elemErr : Nat → α → Option Err) (same : α → α → Bool)
    (dupErr : Nat → Nat → Err) (all : List α) (i0 : Nat) (rest : List α) :
    checkLoop elemErr same dupErr all i0 rest = none ↔
      ∀ m x, rest[m]? = some x →
        elemErr (i0 + m) x = none ∧ dupScan same (i0 + m) x 0 all = none := by
  induction rest generalizing i0 with
  | nil => simp [checkLoop]
  | cons x r ih =>
    have hstep : checkLoop elemErr same dupErr all i0 (x :: r) = none ↔
        elemErr i0 x = none ∧ dupScan same i0 x 0 all = none ∧
          checkLoop elemErr same dupErr all (i0 + 1) r = none := by
      simp only [checkLoop]
      cases h1 : elemErr i0 x with
      | some e => simp
      | none =>
        cases h2 : dupScan same i0 x 0 all with
        | some j => simp
        | none => simp
    rw [hstep, ih (i0 + 1)]
    constructor
    · rintro ⟨h1, h2, h3⟩ m y hm
      cases m with
      | zero =>
        simp only [List.getElem?_cons_zero, Option.some.injEq] at hm
        subst hm
        exact ⟨h1, h2⟩
      | succ m =>
        simp only [List.getElem?_cons_succ] at hm
        have := h3 m y hm
        have e : i0 + 1 + m = i0 + (m + 1) := by omega
        rw [e] at this
        exact this
    · intro h
      have h0 := h 0 x (by simp)
      refine ⟨h0.1, h0.2, ?_⟩
      intro m y hm
      have := h (m + 1) y (by simpa using hm)
      have e : i0 + (m + 1) = i0 + 1 + m := by omega
      rw [e] at this
      exact this

theorem checkLoop_some_idx {α : Type} (elemErr : Nat → α → Option Err) (same : α → α → Bool)
    (dupErr : Nat → Nat → Err) (all : List α) (i0 : Nat) (rest : List α) (e : Err)
    (h : checkLoop elemErr same dupErr all i0 rest = some e) :
    ∃ m x, rest[m]? = some x ∧
      (∀ m' x', m' < m → rest[m']? = some x' →
        elemErr (i0 + m') x' = none ∧ dupScan same (i0 + m') x' 0 all = none) ∧
      (elemErr (i0 + m) x = some e ∨
        (elemErr (i0 + m) x = none ∧
          ∃ j, dupScan same (i0 + m) x 0 all = some j ∧ e = dupErr (i0 + m) j)) := by
  induction rest generalizing i0 with
  | nil => simp [checkLoop] at h
  | cons x r ih =>
    simp only [checkLoop] at h
    cases h1 : elemErr i0 x with
    | some e1 =>
      simp only [h1, Option.some.injEq] at h
      subst h
      exact ⟨0, x, by simp, fun m' _ hlt => absurd hlt (by omega), Or.inl (by simpa using h1)⟩
    | none =>
      simp only [h1] at h
      cases h2 : dupScan same i0 x 0 all with
      | some j =>
        simp only [h2, Option.some.injEq] at h
        exact ⟨0, x, by simp, fun m' _ hlt => absurd hlt (by omega),
          Or.inr ⟨by simpa using h1, j, by simpa using h2, h.symm⟩⟩
      | none =>
        simp only [h2] at h
        obtain ⟨m, y, hm, hmin, hat⟩ := ih (i0 + 1) h
        have e1 : i0 + 1 + m = i0 + (m + 1) := by omega
        rw [e1] at hat
        refine ⟨m + 1, y, by simpa using hm, ?_, hat⟩
        intro m' x' hlt hm'
        cases m' with
        | zero =>
          simp only [List.getElem?_cons_zero, Option.some.injEq] at hm'
          subst hm'
          exact ⟨h1, h2⟩
        | succ m' =>
          simp only [List.getElem?_cons_succ] at hm'
          have := hmin m' x' (by omega) hm'
          have e2 : i0 + 1 + m' = i0 + (m' + 1) := by omega
          rw [e2] at this
          exact this

theorem clean_iff_not_offends {α : Type} (elemErr : Nat → α → Option Err)
    (same : α → α → Bool) (good : α → Prop) (dup : α → α → Prop)
    (hgood : ∀ i x, elemErr i x = none ↔ good x)
    (hsame : ∀ x y, same x y = true ↔ dup x y)
    (all : List α) (i : Nat) (x : α) (hx : all[i]? = some x) :
    (elemErr i x = none ∧ dupScan same i x 0 all = none) ↔ ¬ offends good dup all i := by
  rw [hgood, dupScan_none_idx]
  simp only [Nat.zero_add]
  constructor
  · rintro ⟨hg, hd⟩ ⟨x', hx', hbad⟩
    rw [hx] at hx'
    cases hx'
    rcases hbad with hb | ⟨j, y, hj, hy, hdup⟩
    · exact hb hg
    · have := hd j y hy hj
      rw [(hsame x y).mpr hdup] at this
      cases this
  · intro hno
    constructor
    · by_contra hb
      exact hno ⟨x, hx, Or.inl hb⟩
    · intro m y hy hm
      cases hs : same x y with
      | false => rfl
      | true => exact absurd ⟨x, hx, Or.inr ⟨m, y, hm, hy, (hsame x y).mp hs⟩⟩ hno

theorem checkLoop_at_first {α : Type} (elemErr : Nat → α → Option Err)
    (same : α → α → Bool) (dupErr : Nat → Nat → Err) (good : α → Prop) (dup : α → α → Prop)
    (hgood : ∀ i x, elemErr i x = none ↔ good x)
    (hsame : ∀ x y, same x y = true ↔ dup x y)
    (all : List α) (i : Nat) (hoff : offends good dup all i)
    (hmin : ∀ i', i' < i → ¬ offends good dup all i') :
    ∃ x, all[i]? = some x ∧
      ((∃ e, elemErr i x = some e ∧ checkLoop elemErr same dupErr all 0 all = some e) ∨
       (good x ∧ ∃ j y, j ≠ i ∧ all[j]? = some y ∧ dup x y ∧
          (∀ j' y', j' < j → j' ≠ i → all[j']? = some y' → ¬ dup x y') ∧
          checkLoop elemErr same dupErr all 0 all = some (dupErr i j))) := by
  obtain ⟨xi, hxi, _⟩ := id hoff
  have hnotclean : ¬ (elemErr i xi = none ∧ dupScan same i xi 0 all = none) := by
    rw [clean_iff_not_offends elemErr same good dup hgood hsame all i xi hxi]
    exact fun h => h hoff
  cases hres : checkLoop elemErr same dupErr all 0 all with
  | none =>
    have := (checkLoop_none_idx elemErr same dupErr all 0 all).mp hres i xi hxi
    simp only [Nat.zero_add] at this
    exact absurd this hnotclean
  | some e =>
    obtain ⟨m, x, hm, hearly, hat⟩ := checkLoop_some_idx elemErr same dupErr all 0 all e hres
    simp only [Nat.zero_add] at hearly hat
    have hmoff : offends good dup all m := by
      by_contra hc
      have hcl := (clean_iff_not_offends elemErr same good dup hgood hsame all m x hm).mpr hc
      rcases hat with h1 | ⟨_, j, h2, _⟩
      · rw [hcl.1] at h1
        cases h1
      · rw [hcl.2] at h2
        cases h2
    have hmi : m = i := by
      rcases Nat.lt_trichotomy m i with hlt | heq | hgt
      · exact absurd hmoff (hmin m hlt)
      · exact heq
      · exact absurd (hearly i xi hgt hxi) hnotclean
    subst hmi
    rw [hm] at hxi
    cases hxi
    refine ⟨xi, hm, ?_⟩
    rcases hat with h1 | ⟨h1, j, h2, he⟩
    · exact Or.inl ⟨e, h1, rfl⟩
    · obtain ⟨m', y, hj, hy, hne, hs, hjmin⟩ := dupScan_some_idx same m xi 0 j all h2
      simp only [Nat.zero_add] at hj hjmin
      rw [← hj] at hy hjmin
      refine Or.inr ⟨(hgood m xi).mp h1, j, y, hne, hy, (hsame xi y).mp hs, ?_, by rw [he]⟩
      intro j' y' hlt hne' hy' hd
      have := hjmin j' y' hlt hy' hne'
      rw [(hsame xi y').mpr hd] at this
      cases this

theorem checkLoop_none_iff_no_offender {α : Type} (elemErr : Nat → α → Option Err)
    (same : α → α → Bool) (dupErr : Nat → Nat → Err) (good : α → Prop) (dup : α → α → Prop)
    (hgood : ∀ i x, elemErr i x = none ↔ good x)
    (hsame : ∀ x y, same x y = true ↔ dup x y) (all : List α) :
    checkLoop elemErr same dupErr all 0 all = none ↔ ∀ i, ¬ offends good dup all i := by
  rw [checkLoop_none_idx]
  simp only [Nat.zero_add]
  constructor
  · intro h i hoff
    obtain ⟨x, hx, _⟩ := id hoff
    exact (clean_iff_not_offends elemErr same good dup hgood hsame all i x hx).mp (h i x hx) hoff
  · intro h m x hx
    exact (clean_iff_not_offends elemErr same good dup hgood hsame all m x hx).mpr (h m)

theorem secretErr_none_iff (i : Nat) (ds : Bytes) :
    (if ds.length ≠ disablementLength then some (Err.disablementInvalidLength i ds.length)
      else none) = none ↔ ds.length = 32 := by
  simp [disablementLength]

theorem keyErr_none_iff (E : Ext) (i : Nat) (k : Key) :
    (match E.StaticValidate k with
      | some cause => some (Err.keyInvalid i cause)
      | none => none) = none ↔ E.StaticValidate k = none := by
  cases hx : E.StaticValidate k <;> simp

theorem checkSecretsFrom_none_iff_fine (l : List Bytes) :
    checkSecretsFrom l 0 l = none ↔ ∀ i, ¬ secretOffends l i := by
  rw [checkSecretsFrom_eq]
  exact checkLoop_none_iff_no_offender _ bytesEqual _ (fun ds : Bytes => ds.length = 32)
    (fun a b => a = b) secretErr_none_iff bytesEqual_iff l

theorem checkKeysFrom_none_iff_fine (E : Ext) (l : List Key) :
    checkKeysFrom E l 0 l = none ↔ ∀ i, ¬ keyOffends E l i := by
  rw [checkKeysFrom_eq]
  exact checkLoop_none_iff_no_offender _ (fun a b => bytesEqual (a.ID E) (b.ID E)) _
    (fun k : Key => E.StaticValidate k = none) (fun a b => a.ID E = b.ID E)
    (keyErr_none_iff E) (fun a b => bytesEqual_iff _ _) l

theorem checkSecretsFrom_first (l : List Bytes) (i : Nat) (hoff : secretOffends l i)
    (hmin : ∀ i', i' < i → ¬ secretOffends l i') :
    ∃ x, l[i]? = some x ∧
      ((x.length ≠ 32 ∧
          checkSecretsFrom l 0 l = some (.disablementInvalidLength i x.length)) ∨
       (x.length = 32 ∧ ∃ j, j ≠ i ∧ l[j]? = some x ∧
          (∀ j', j' < j → j' ≠ i → l[j']? ≠ some x) ∧
          checkSecretsFrom l 0 l = some (.disablementDuplicate i j))) := by
  rw [checkSecretsFrom_eq]
  obtain ⟨x, hx, hcase⟩ := checkLoop_at_first _ bytesEqual Err.disablementDuplicate
    (fun ds : Bytes => ds.length = 32) (fun a b => a = b) secretErr_none_iff bytesEqual_iff
    l i hoff hmin
  refine ⟨x, hx, ?_⟩
  rcases hcase with ⟨e, he, hres⟩ | ⟨hg, j, y, hj, hy, hxy, hjmin, hres⟩
  · left
    by_cases hlen : x.length = 32
    · simp [disablementLength, hlen] at he
    · simp only [disablementLength, ne_eq, hlen, not_false_eq_true, if_true,
        Option.some.injEq] at he
      subst he
      exact ⟨hlen, hres⟩
  · right
    subst hxy
    exact ⟨hg, j, hj, hy, fun j' hlt hne hc => hjmin j' x hlt hne hc rfl, hres⟩

theorem checkKeysFrom_first (E : Ext) (l : List Key) (i : Nat) (hoff : keyOffends E l i)
    (hmin : ∀ i', i' < i → ¬ keyOffends E l i') :
    ∃ k, l[i]? = some k ∧
      ((∃ cause, E.StaticValidate k = some cause ∧
          checkKeysFrom E l 0 l = some (.keyInvalid i cause)) ∨
       (E.StaticValidate k = none ∧ ∃ j k2, j ≠ i ∧ l[j]? = some k2 ∧ k2.ID E = k.ID E ∧
          (∀ j' k', j' < j → j' ≠ i → l[j']? = some k' → k'.ID E ≠ k.ID E) ∧
          checkKeysFrom E l 0 l = some (.keyDuplicate i j))) := by
  rw [checkKeysFrom_eq]
  obtain ⟨k, hk, hcase⟩ := checkLoop_at_first _ (fun a b => bytesEqual (a.ID E) (b.ID E))
    Err.keyDuplicate (fun k : Key => E.StaticValidate k = none) (fun a b => a.ID E = b.ID E)
    (keyErr_none_iff E) (fun a b => bytesEqual_iff _ _) l i hoff hmin
  refine ⟨k, hk, ?_⟩
  rcases hcase with ⟨e, he, hres⟩ | ⟨hg, j, y, hj, hy, hxy, hjmin, hres⟩
  · left
    cases hv : E.StaticValidate k with
    | none => simp [hv] at he
    | some cause =>
      simp only [hv, Option.some.injEq] at he
      subst he
      exact ⟨cause, rfl, hres⟩
  · right
    exact ⟨hg, j, y, hj, hy, hxy.symm,
      fun j' k' hlt hne hc hid => hjmin j' k' hlt hne hc hid.symm, hres⟩

theorem checkDenylistFrom_first (l : List Bytes) (i : Nat) (hoff : entryOffends l i)
    (hmin : ∀ i', i' < i → ¬ entryOffends l i') :
    ∃ x j, l[i]? = some x ∧ j ≠ i ∧ l[j]? = some x ∧
      (∀ j', j' < j → j' ≠ i → l[j']? ≠ some x) ∧
      checkDenylistFrom l 0 l = some (.denylistDuplicate i j) := by
  rw [checkDenylistFrom_eq]
  obtain ⟨x, hx, hcase⟩ := checkLoop_at_first (fun _ _ => none) bytesEqual
    Err.denylistDuplicate (fun _ : Bytes => True) (fun a b => a = b)
    (fun _ _ => by simp) bytesEqual_iff l i hoff hmin
  rcases hcase with ⟨e, he, _⟩ | ⟨_, j, y, hj, hy, hxy, hjmin, hres⟩
  · cases he
  · subst hxy
    exact ⟨x, j, hx, hj, hy, fun j' hlt hne hc => hjmin j' x hlt hne hc rfl, hres⟩

/-! ### Lookups after a key is added or removed -/

theorem getKeyLoop_append_other (E : Ext) (id : Bytes) (l : List Key) (k : Key)
    (hne : id ≠ k.ID E) : getKeyLoop E id (l ++ [k]) = getKeyLoop E id l := by
  induction l with
  | nil =>
    have : bytesEqual (k.ID E) id = false := (bytesEqual_false_iff _ _).mpr (fun h => hne h.symm)
    simp [getKeyLoop, this]
  | cons x xs ih =>
    have ih' : getKeyLoop E id (xs.append [k]) = getKeyLoop E id xs := ih
    simp only [List.cons_append, getKeyLoop, ih']

theorem getKeyLoop_remove_other (E : Ext) (id : Bytes) (pre post : List Key) (k : Key)
    (hne : id ≠ k.ID E) :
    getKeyLoop E id (pre ++ post) = getKeyLoop E id (pre ++ k :: post) := by
  induction pre with
  | nil =>
    have : bytesEqual (k.ID E) id = false := (bytesEqual_false_iff _ _).mpr (fun h => hne h.symm)
    simp [getKeyLoop, this]
  | cons x xs ih =>
    have ih' : getKeyLoop E id (xs.append post) = getKeyLoop E id (xs.append (k :: post)) := ih
    simp only [List.cons_append, getKeyLoop, ih']

theorem nodup_ID_rest (E : Ext) (pre post : List Key) (k : Key)
    (h : ((pre ++ k :: post).map (Key.ID E)).Nodup) :
    ∀ x ∈ pre ++ post, x.ID E ≠ k.ID E := by
  rw [List.map_append, List.map_cons, List.nodup_append] at h
  obtain ⟨_, hpost, hdisj⟩ := h
  rw [List.nodup_cons] at hpost
  intro x hx hid
  rcases List.mem_append.mp hx with hx | hx
  · exact hdisj (List.mem_map_of_mem _ hx) (by rw [hid]; exact List.mem_cons_self _ _)
  · exact hpost.1 (by rw [← hid]; exact List.mem_map_of_mem _ hx)

/-! ### Clone at the level of byte slices -/

theorem cloneByteSlice_elems (b : ByteSlice) : (cloneByteSlice b).elems = b.elems := by
  cases b <;> simp [cloneByteSlice, copyBytes, makeBytes, Slice.len, Slice.elems]

theorem cloneByteSlice_eq_iff (b : ByteSlice) : cloneByteSlice b = b ↔ b ≠ .nil := by
  cases b with
  | nil => simp [cloneByteSlice]
  | mk l => simp [cloneByteSlice, copyBytes, makeBytes, Slice.len, Slice.elems]

theorem map_eq_self_iff {α : Type} (f : α → α) (l : List α) :
    l.map f = l ↔ ∀ x ∈ l, f x = x := by
  induction l with
  | nil => simp
  | cons x xs ih => simp [ih]

theorem Slice.mapElems_eq_self_iff {α : Type} (f : α → α) (s : Slice α) :
    s.mapElems f = s ↔ ∀ x ∈ s.elems, f x = x := by
  cases s with
  | nil => simp [Slice.mapElems, Slice.elems]
  | mk l => simp [Slice.mapElems, Slice.elems, map_eq_self_iff]

theorem Slice.mapElems_nil_iff {α β : Type} (f : α → β) (s : Slice α) :
    s.mapElems f = .nil ↔ s = .nil := by
  cases s <;> simp [Slice.mapElems]

theorem Slice.elems_mapElems {α β : Type} (f : α → β) (s : Slice α) :
    (s.mapElems f).elems = s.elems.map f := by
  cases s <;> simp [Slice.mapElems, Slice.elems]

theorem Slice.mapElems_mapElems {α β γ : Type} (f : α → β) (g : β → γ) (s : Slice α) :
    (s.mapElems f).mapElems g = s.mapElems (fun x => g (f x)) := by
  cases s <;> simp [Slice.mapElems]

/-- The clone at the level of byte slices, read on contents, is the clone at
the level of contents, which is the state itself. -/
theorem rawClone_contents (s : RawState) :
    s.Clone.contents = s.contents.Clone ∧ s.Clone.contents = s.contents := by
  have h : s.Clone.contents = s.contents := by
    cases s with
    | mk h ds ks bn =>
      simp only [RawState.Clone, RawState.contents, Slice.mapElems_mapElems,
        cloneByteSlice_elems, Slice.mapElems_eq_self Key.Clone keyClone_eq]
      cases h <;> rfl
  exact ⟨by rw [h, stateClone_eq], h⟩

/-- What `Clone` keeps at the level of byte slices: `LastAUMHash`, the keys,
the nil-ness and the length of each sequence, and the bytes of each element. -/
theorem rawClone_shape (s : RawState) :
    s.Clone.LastAUMHash = s.LastAUMHash ∧ s.Clone.Keys = s.Keys ∧
    (s.Clone.DisablementSecrets = .nil ↔ s.DisablementSecrets = .nil) ∧
    (s.Clone.BannedNodekeys = .nil ↔ s.BannedNodekeys = .nil) ∧
    s.Clone.DisablementSecrets.elems.map Slice.elems =
      s.DisablementSecrets.elems.map Slice.elems ∧
    s.Clone.BannedNodekeys.elems.map Slice.elems =
      s.BannedNodekeys.elems.map Slice.elems := by
  cases s with
  | mk h ds ks bn =>
    refine ⟨?_, ?_, ?_, ?_, ?_, ?_⟩
    · cases h <;> rfl
    · exact Slice.mapElems_eq_self Key.Clone keyClone_eq ks
    · exact Slice.mapElems_nil_iff _ _
    · exact Slice.mapElems_nil_iff _ _
    · simp [RawState.Clone, Slice.elems_mapElems, cloneByteSlice_elems]
    · simp [RawState.Clone, Slice.elems_mapElems, cloneByteSlice_elems]

/-- The clone equals its receiver exactly when no element of
`DisablementSecrets` or `BannedNodekeys` is a nil byte slice. -/
theorem rawClone_eq_iff (s : RawState) :
    s.Clone = s ↔
      (∀ b ∈ s.DisablementSecrets.elems, b ≠ Slice.nil) ∧
      (∀ b ∈ s.BannedNodekeys.elems, b ≠ Slice.nil) := by
  cases s with
  | mk h ds ks bn =>
    have hh : (match h with
        | some x => some x
        | none => none) = h := by cases h <;> rfl
    simp only [RawState.Clone, RawState.mk.injEq, hh, true_and,
      Slice.mapElems_eq_self Key.Clone keyClone_eq, Slice.mapElems_eq_self_iff,
      cloneByteSlice_eq_iff]

/-! ## Chain continuity and parent enforcement -/

/-- C1 (chain continuity): whenever `applyVerifiedAUM` succeeds, whatever the
message kind, the new state's `LastAUMHash` is present and equals the hash of
the applied AUM. -/
theorem applyVerifiedAUM_lastAUMHash (E : Ext) (s : State) (a : AUM) (s' : State)
    (h : s.applyVerifiedAUM E a = .ok s') : s'.LastAUMHash = some (E.Hash a) := by
  unfold State.applyVerifiedAUM at h
  simp only [cloneForUpdate_eq] at h
  split at h
  · cases h
  · split at h
    · cases h; rfl
    · split at h
      · cases h
      · cases h; rfl
    · split at h
      · cases h
      · split at h
        · cases h
        · cases h; rfl
    · split at h
      · cases h
      · split at h
        · cases h
        · cases h; rfl
    · split at h
      · cases h
      · cases h; rfl
    · split at h
      · cases h
      · cases h; rfl
    · split at h
      · cases h
      · cases h; rfl
    · cases h

/-- Witness for C1: `AddKey(K2)` applied to the sample state succeeds and the
new `LastAUMHash` is the hash of that AUM. -/
theorem applyVerifiedAUM_lastAUMHash_witness :
    stateK.applyVerifiedAUM demoExt addK2 =
        .ok { stateKK2 with LastAUMHash := some (demoExt.Hash addK2) } ∧
      ({ stateKK2 with LastAUMHash := some (demoExt.Hash addK2) } : State).LastAUMHash =
        some (demoExt.Hash addK2) :=
  ⟨by decide, applyVerifiedAUM_lastAUMHash demoExt stateK addK2 _ (by decide)⟩

/-- C2 (parent enforcement): when `LastAUMHash` is present with value `h` and
the AUM's `PrevAUMHash` is not byte-equal to `h`, `applyVerifiedAUM` returns
the parent-mismatch error whatever the message kind and the other fields are;
conversely that error is returned only in this situation, so a state with
absent `LastAUMHash` never yields it. -/
theorem applyVerifiedAUM_parent_enforcement (E : Ext) (s : State) (a : AUM) :
    (∀ h : AUMHash, s.LastAUMHash = some h → a.PrevAUMHash ≠ h.bytes →
        s.applyVerifiedAUM E a = .err .parentMismatch) ∧
    (s.applyVerifiedAUM E a = .err .parentMismatch →
        ∃ h : AUMHash, s.LastAUMHash = some h ∧ a.PrevAUMHash ≠ h.bytes) ∧
    (s.LastAUMHash = none → s.applyVerifiedAUM E a ≠ .err .parentMismatch) := by
  refine ⟨?_, ?_, ?_⟩
  · intro h hl hne
    exact applyVerifiedAUM_of_mismatch E s a ((parentMatches_eq_false_iff s a).mpr ⟨h, hl, hne⟩)
  · intro he
    exact (parentMatches_eq_false_iff s a).mp (applyVerifiedAUM_mismatch_only E s a he)
  · intro hn he
    obtain ⟨h, hl, _⟩ :=
      (parentMatches_eq_false_iff s a).mp (applyVerifiedAUM_mismatch_only E s a he)
    rw [hn] at hl
    cases hl

/-- Witness for C2: on the sample state a stale parent is rejected both for an
unknown message kind and for an `AddKey` without a key, and the pre-genesis
state does not reject the same AUM for its parent. -/
theorem applyVerifiedAUM_parent_enforcement_witness :
    stateK.applyVerifiedAUM demoExt staleUnknown = .err .parentMismatch ∧
    stateK.applyVerifiedAUM demoExt staleAddNoKey = .err .parentMismatch ∧
    emptyState.applyVerifiedAUM demoExt staleAddNoKey ≠ .err .parentMismatch :=
  ⟨(applyVerifiedAUM_parent_enforcement demoExt stateK staleUnknown).1 demoParent rfl
      (by decide),
   (applyVerifiedAUM_parent_enforcement demoExt stateK staleAddNoKey).1 demoParent rfl
      (by decide),
   (applyVerifiedAUM_parent_enforcement demoExt emptyState staleAddNoKey).2.2 rfl⟩

/-! ## Key AUMs -/

/-- C3 (AddKey): for a parent-matching `AddKey` AUM, the call fails with the
missing-key error when no key is provided, fails with the key-already-exists
error when some key of the state has the KeyID of the provided key, and
otherwise succeeds with `Keys` equal to the old keys followed by the provided
key as last element. -/
theorem applyVerifiedAUM_addKey (E : Ext) (s : State) (a : AUM)
    (hk : a.MessageKind = .AUMAddKey) (hp : s.parentMatches a = true) :
    (a.Key = none → s.applyVerifiedAUM E a = .err .noKeyToAdd) ∧
    (∀ k, a.Key = some k → (∃ k' ∈ s.Keys.elems, k'.ID E = k.ID E) →
        s.applyVerifiedAUM E a = .err .keyAlreadyExists) ∧
    (∀ k, a.Key = some k → (∀ k' ∈ s.Keys.elems, k'.ID E ≠ k.ID E) →
        ∃ s', s.applyVerifiedAUM E a = .ok s' ∧ s'.Keys = .mk (s.Keys.elems ++ [k]) ∧
          s'.Keys.elems = s.Keys.elems ++ [k]) := by
  refine ⟨?_, ?_, ?_⟩
  · intro hnone
    simp [State.applyVerifiedAUM, hp, hk, hnone]
  · intro k hsome hex
    obtain ⟨k0, hk0⟩ := getKeyLoop_ok_of_exists E (k.ID E) s.Keys.elems hex
    simp [State.applyVerifiedAUM, hp, hk, hsome, State.GetKey, hk0]
  · intro k hsome hall
    have hg := getKeyLoop_error_of_forall E (k.ID E) s.Keys.elems hall
    refine ⟨{ LastAUMHash := some (E.Hash a), DisablementSecrets := s.DisablementSecrets,
              Keys := .mk (s.Keys.elems ++ [k]), BannedNodekeys := s.BannedNodekeys },
            ?_, rfl, rfl⟩
    simp [State.applyVerifiedAUM, hp, hk, hsome, State.GetKey, hg, cloneForUpdate_eq,
      Slice.append]

/-- Witness for C3: on the sample state, `AddKey` without a key is refused for
the missing key, and `AddKey(K2)` appends `K2` after `K`. -/
theorem applyVerifiedAUM_addKey_witness :
    stateK.applyVerifiedAUM demoExt addNoKey = .err .noKeyToAdd ∧
    ∃ s', stateK.applyVerifiedAUM demoExt addK2 = .ok s' ∧ s'.Keys = .mk ([keyK] ++ [keyK2]) ∧
      s'.Keys.elems = [keyK] ++ [keyK2] :=
  ⟨(applyVerifiedAUM_addKey demoExt stateK addNoKey rfl (by decide)).1 rfl,
   (applyVerifiedAUM_addKey demoExt stateK addK2 rfl (by decide)).2.2 keyK2 rfl (by decide)⟩

/-- C4 (UpdateKey): for a parent-matching `UpdateKey` AUM, the call returns
`ErrNoSuchKey` when no key of the state has KeyID `a.KeyID`, whether or not the
update would validate.  Otherwise, with `k` the first key having that KeyID and
`k'` its overlay by the votes and metadata present in the AUM: the call fails
when `k'` fails `StaticValidate`, and else succeeds with a `Keys` sequence of
the same length in which each key with another KeyID is unchanged at its
position and each key with KeyID `a.KeyID` is `k'`. -/
theorem applyVerifiedAUM_updateKey (E : Ext) (s : State) (a : AUM)
    (hk : a.MessageKind = .AUMUpdateKey) (hp : s.parentMatches a = true) :
    ((∀ k ∈ s.Keys.elems, k.ID E ≠ a.KeyID) → s.applyVerifiedAUM E a = .err .ErrNoSuchKey) ∧
    ((∃ k ∈ s.Keys.elems, k.ID E = a.KeyID) →
      ∃ pre k post, s.Keys.elems = pre ++ k :: post ∧ k.ID E = a.KeyID ∧
        (∀ x ∈ pre, x.ID E ≠ a.KeyID) ∧
        (∀ cause, E.StaticValidate (k.overlay a.Votes a.Meta) = some cause →
          s.applyVerifiedAUM E a = .err (.updatedKeyInvalid cause)) ∧
        (E.StaticValidate (k.overlay a.Votes a.Meta) = none →
          ∃ s', s.applyVerifiedAUM E a = .ok s' ∧
            s'.Keys.elems.length = s.Keys.elems.length ∧
            s'.Keys.elems = s.Keys.elems.map
              (fun x => if x.ID E = a.KeyID then k.overlay a.Votes a.Meta else x) ∧
            ∀ (i : Nat) (x : Key), s.Keys.elems[i]? = some x →
              s'.Keys.elems[i]? =
                some (if x.ID E = a.KeyID then k.overlay a.Votes a.Meta else x))) := by
  refine ⟨?_, ?_⟩
  · intro hall
    have hg := getKeyLoop_error_of_forall E a.KeyID s.Keys.elems hall
    simp [State.applyVerifiedAUM, hp, hk, State.GetKey, hg]
  · intro hex
    obtain ⟨pre, k, post, hdec, hid, hpre⟩ :=
      exists_first (fun k : Key => k.ID E = a.KeyID) s.Keys.elems hex
    have hg : getKeyLoop E a.KeyID s.Keys.elems = .ok k := by
      rw [hdec]
      exact getKeyLoop_of_first E a.KeyID pre post k hid hpre
    have hov : (match a.Meta with
        | some m => { (match a.Votes with
                        | some v => { k with Votes := v }
                        | none => k) with Meta := some m }
        | none => (match a.Votes with
                        | some v => { k with Votes := v }
                        | none => k)) = k.overlay a.Votes a.Meta := by
      cases a.Votes <;> cases a.Meta <;> rfl
    refine ⟨pre, k, post, hdec, hid, hpre, ?_, ?_⟩
    · intro cause hc
      simp only [State.applyVerifiedAUM, hp, hk, State.GetKey, hg, Bool.not_true,
        Bool.false_eq_true, if_false, hov, hc]
    · intro hv
      have hmap : ∀ l : List Key,
          l.map (fun x => if bytesEqual (x.ID E) a.KeyID = true
            then k.overlay a.Votes a.Meta else x) =
          l.map (fun x => if x.ID E = a.KeyID then k.overlay a.Votes a.Meta else x) := by
        intro l
        apply List.map_congr_left
        intro x _
        simp only [bytesEqual_iff]
      refine ⟨{ LastAUMHash := some (E.Hash a), DisablementSecrets := s.DisablementSecrets,
                Keys := s.Keys.mapElems
                  (fun x => if x.ID E = a.KeyID then k.overlay a.Votes a.Meta else x),
                BannedNodekeys := s.BannedNodekeys }, ?_, ?_, ?_, ?_⟩
      · simp only [State.applyVerifiedAUM, hp, hk, State.GetKey, hg, Bool.not_true,
          Bool.false_eq_true, if_false, hov, hv, cloneForUpdate_eq]
        cases hs : s.Keys with
        | nil => rfl
        | mk l => simp only [Slice.mapElems, hmap]
      · cases hs : s.Keys <;> simp [Slice.mapElems, Slice.elems]
      · cases hs : s.Keys <;> simp [Slice.mapElems, Slice.elems]
      · intro i x hix
        cases hs : s.Keys with
        | nil => simp [hs, Slice.elems] at hix
        | mk l =>
          simp only [hs, Slice.elems] at hix
          simp [Slice.mapElems, Slice.elems, List.getElem?_map, hix]

/-- Witness for C4: on the sample state with keys `K, K2`, updating `K` to
five votes succeeds, leaves `K2` in place and stores the overlaid key. -/
theorem applyVerifiedAUM_updateKey_witness :
    ∃ pre k post, stateKK2.Keys.elems = pre ++ k :: post ∧ k.ID demoExt = updateKVotes.KeyID ∧
        (∀ x ∈ pre, x.ID demoExt ≠ updateKVotes.KeyID) ∧
        (∀ cause, demoExt.StaticValidate (k.overlay updateKVotes.Votes updateKVotes.Meta) =
            some cause →
          stateKK2.applyVerifiedAUM demoExt updateKVotes = .err (.updatedKeyInvalid cause)) ∧
        (demoExt.StaticValidate (k.overlay updateKVotes.Votes updateKVotes.Meta) = none →
          ∃ s', stateKK2.applyVerifiedAUM demoExt updateKVotes = .ok s' ∧
            s'.Keys.elems.length = stateKK2.Keys.elems.length ∧
            s'.Keys.elems = stateKK2.Keys.elems.map
              (fun x => if x.ID demoExt = updateKVotes.KeyID
                then k.overlay updateKVotes.Votes updateKVotes.Meta else x) ∧
            ∀ (i : Nat) (x : Key), stateKK2.Keys.elems[i]? = some x →
              s'.Keys.elems[i]? =
                some (if x.ID demoExt = updateKVotes.KeyID
                  then k.overlay updateKVotes.Votes updateKVotes.Meta else x)) :=
  (applyVerifiedAUM_updateKey demoExt stateKK2 updateKVotes rfl (by decide)).2
    ⟨keyK, by decide, by decide⟩

/-- C5 (RemoveKey): for a parent-matching `RemoveKey` AUM, the call returns
`ErrNoSuchKey` exactly when no key of the state has KeyID `a.KeyID`; otherwise
it succeeds and the new `Keys` is the old sequence with exactly the first key
of that KeyID deleted: the length drops by one and the surviving keys keep
their relative order. -/
theorem applyVerifiedAUM_removeKey (E : Ext) (s : State) (a : AUM)
    (hk : a.MessageKind = .AUMRemoveKey) (hp : s.parentMatches a = true) :
    (s.applyVerifiedAUM E a = .err .ErrNoSuchKey ↔ ∀ k ∈ s.Keys.elems, k.ID E ≠ a.KeyID) ∧
    ((∃ k ∈ s.Keys.elems, k.ID E = a.KeyID) →
      ∃ s' pre k post, s.applyVerifiedAUM E a = .ok s' ∧
        s.Keys.elems = pre ++ k :: post ∧ k.ID E = a.KeyID ∧
        (∀ x ∈ pre, x.ID E ≠ a.KeyID) ∧
        s'.Keys.elems = pre ++ post ∧
        s'.Keys.elems.length + 1 = s.Keys.elems.length ∧
        List.Sublist s'.Keys.elems s.Keys.elems) := by
  have hsucc : (∃ k ∈ s.Keys.elems, k.ID E = a.KeyID) →
      ∃ s' pre k post, s.applyVerifiedAUM E a = .ok s' ∧
        s.Keys.elems = pre ++ k :: post ∧ k.ID E = a.KeyID ∧
        (∀ x ∈ pre, x.ID E ≠ a.KeyID) ∧
        s'.Keys.elems = pre ++ post ∧
        s'.Keys.elems.length + 1 = s.Keys.elems.length ∧
        List.Sublist s'.Keys.elems s.Keys.elems := by
    intro hex
    obtain ⟨pre, k, post, hdec, hid, hpre⟩ :=
      exists_first (fun k : Key => k.ID E = a.KeyID) s.Keys.elems hex
    have hf : findIdxFrom (fun k => bytesEqual a.KeyID (k.ID E)) 0 s.Keys.elems =
        some pre.length := by
      rw [hdec]
      have := findIdxFrom_of_first (fun k => bytesEqual a.KeyID (k.ID E)) 0 pre post k
        ((bytesEqual_iff _ _).mpr hid.symm)
        (fun y hy => (bytesEqual_false_iff _ _).mpr (fun hc => hpre y hy hc.symm))
      simpa using this
    cases hs : s.Keys with
    | nil => simp [hs, Slice.elems] at hdec
    | mk l =>
      simp only [hs, Slice.elems] at hdec hf
      refine ⟨{ LastAUMHash := some (E.Hash a), DisablementSecrets := s.DisablementSecrets,
                Keys := .mk (pre ++ post), BannedNodekeys := s.BannedNodekeys },
              pre, k, post, ?_, ?_, hid, hpre, rfl, ?_, ?_⟩
      · simp only [State.applyVerifiedAUM, hp, hk, Bool.not_true, Bool.false_eq_true, if_false,
          hs, Slice.elems, hf, cloneForUpdate_eq, Slice.spliceOut]
        rw [hdec, splice_append_cons]
      · simp [Slice.elems, hdec]
      · simp only [Slice.elems, hdec, List.length_append, List.length_cons]
        omega
      · simp [Slice.elems, hdec]
  refine ⟨⟨?_, ?_⟩, hsucc⟩
  · intro herr k hk' hid
    obtain ⟨s', _, _, _, hok, _⟩ := hsucc ⟨k, hk', hid⟩
    rw [hok] at herr
    cases herr
  · intro hall
    have hf : findIdxFrom (fun k => bytesEqual a.KeyID (k.ID E)) 0 s.Keys.elems = none := by
      rw [findIdxFrom_none]
      intro x hx
      exact (bytesEqual_false_iff _ _).mpr (fun hc => hall x hx hc.symm)
    simp [State.applyVerifiedAUM, hp, hk, hf]

/-- Witness for C5: removing `K` from the sample state with keys `K, K2`
succeeds and leaves one key fewer. -/
theorem applyVerifiedAUM_removeKey_witness :
    ∃ s' pre k post, stateKK2.applyVerifiedAUM demoExt removeK = .ok s' ∧
        stateKK2.Keys.elems = pre ++ k :: post ∧ k.ID demoExt = removeK.KeyID ∧
        (∀ x ∈ pre, x.ID demoExt ≠ removeK.KeyID) ∧
        s'.Keys.elems = pre ++ post ∧
        s'.Keys.elems.length + 1 = stateKK2.Keys.elems.length ∧
        List.Sublist s'.Keys.elems stateKK2.Keys.elems :=
  (applyVerifiedAUM_removeKey demoExt stateKK2 removeK rfl (by decide)).2
    ⟨keyK, by decide, by decide⟩

/-! ## Checkpoint -/

/-- C6 (Checkpoint replaces the state): for a `Checkpoint` AUM carrying a
state, any two states the AUM chains to give the same successful result; its
`DisablementSecrets`, `Keys` and `BannedNodekeys` are those of the carried
state and its `LastAUMHash` is the hash of the AUM, so nothing of the current
state survives. -/
theorem applyVerifiedAUM_checkpoint (E : Ext) (s1 s2 : State) (a : AUM) (cs : State)
    (hk : a.MessageKind = .AUMCheckpoint) (hs : a.State = some cs)
    (h1 : s1.parentMatches a = true) (h2 : s2.parentMatches a = true) :
    ∃ r, s1.applyVerifiedAUM E a = .ok r ∧ s2.applyVerifiedAUM E a = .ok r ∧
      r.DisablementSecrets = cs.DisablementSecrets ∧ r.Keys = cs.Keys ∧
      r.BannedNodekeys = cs.BannedNodekeys ∧ r.LastAUMHash = some (E.Hash a) := by
  refine ⟨{ LastAUMHash := some (E.Hash a), DisablementSecrets := cs.DisablementSecrets,
            Keys := cs.Keys, BannedNodekeys := cs.BannedNodekeys }, ?_, ?_, rfl, rfl, rfl, rfl⟩
  · simp [State.applyVerifiedAUM, h1, hk, hs, cloneForUpdate_eq]
  · simp [State.applyVerifiedAUM, h2, hk, hs, cloneForUpdate_eq]

/-- Witness for C6: the sample checkpoint applied to the sample state and to
the pre-genesis state gives one and the same state, that of the checkpoint. -/
theorem applyVerifiedAUM_checkpoint_witness :
    ∃ r, stateK.applyVerifiedAUM demoExt checkpointAUM = .ok r ∧
      emptyState.applyVerifiedAUM demoExt checkpointAUM = .ok r ∧
      r.DisablementSecrets = checkpointState.DisablementSecrets ∧
      r.Keys = checkpointState.Keys ∧
      r.BannedNodekeys = checkpointState.BannedNodekeys ∧
      r.LastAUMHash = some (demoExt.Hash checkpointAUM) :=
  applyVerifiedAUM_checkpoint demoExt stateK emptyState checkpointAUM checkpointState
    rfl rfl (by decide) (by decide)

/-! ## Checkpoint validation -/

/-- C7 (`staticValidateCheckpoint`): a state is accepted if and only if
`LastAUMHash` is absent; there are between 1 and 32 disablement secrets, each
exactly 32 bytes long, pairwise distinct; there are between 1 and 512 keys,
each passing `Key.StaticValidate`, with pairwise distinct KeyIDs; and there
are at most 64 banned node keys, pairwise distinct.  In particular a state
with more than 512 keys, more than 32 disablement secrets, more than 64 banned
node keys or a zero-length disablement secret is rejected. -/
theorem staticValidateCheckpoint_accepts_iff (E : Ext) (s : State) :
    (s.staticValidateCheckpoint E = none ↔
      s.LastAUMHash = none ∧
      (1 ≤ s.DisablementSecrets.len ∧ s.DisablementSecrets.len ≤ 32 ∧
        (∀ ds ∈ s.DisablementSecrets.elems, ds.length = 32) ∧
        s.DisablementSecrets.elems.Nodup) ∧
      (1 ≤ s.Keys.len ∧ s.Keys.len ≤ 512 ∧
        (∀ k ∈ s.Keys.elems, E.StaticValidate k = none) ∧
        (s.Keys.elems.map (Key.ID E)).Nodup) ∧
      (s.BannedNodekeys.len ≤ 64 ∧ s.BannedNodekeys.elems.Nodup)) ∧
    ((512 < s.Keys.len ∨ 32 < s.DisablementSecrets.len ∨ 64 < s.BannedNodekeys.len ∨
        (∃ ds ∈ s.DisablementSecrets.elems, ds.length = 0)) →
      s.staticValidateCheckpoint E ≠ none) := by
  refine ⟨staticValidateCheckpoint_none_iff E s, ?_⟩
  intro hbad hacc
  obtain ⟨_, ⟨_, hds, hlen, _⟩, ⟨_, hks, _, _⟩, hbn, _⟩ :=
    (staticValidateCheckpoint_none_iff E s).mp hacc
  rcases hbad with h | h | h | ⟨ds, hmem, hz⟩
  · omega
  · omega
  · omega
  · have := hlen ds hmem
    omega

/-- Witness for C7: the sample checkpoint state is accepted, and the same
state with a zero-length disablement secret is rejected. -/
theorem staticValidateCheckpoint_accepts_iff_witness :
    checkpointState.staticValidateCheckpoint demoExt = none ∧
    zeroSecretState.staticValidateCheckpoint demoExt ≠ none :=
  ⟨(staticValidateCheckpoint_accepts_iff demoExt checkpointState).1.mpr
      ⟨rfl, ⟨by decide, by decide, by decide, by decide⟩,
        ⟨by decide, by decide, by decide, by decide⟩, by decide, by decide⟩,
   (staticValidateCheckpoint_accepts_iff demoExt zeroSecretState).2
      (Or.inr (Or.inr (Or.inr ⟨[], by decide, rfl⟩)))⟩

/-! ## Clone -/

/-- C10, failing input: `Clone` does not return a state equal to its receiver
on `State{BannedNodekeys: [][]byte{nil}}`.  The nil node key is rebuilt by
`make` and `copy` as an empty non-nil byte slice, so the clone is
`State{BannedNodekeys: [][]byte{{}}}`: the nil-versus-empty distinction is
kept for the sequence (still non-nil, still one element of the same bytes) but
lost for its element. -/
theorem Clone_nil_element :
    nilEntryState.Clone = emptyEntryState ∧
    nilEntryState.Clone ≠ nilEntryState ∧
    nilEntryState.BannedNodekeys = .mk [Slice.nil] ∧
    nilEntryState.Clone.BannedNodekeys = .mk [Slice.mk []] ∧
    nilEntryState.Clone.contents = nilEntryState.contents := by
  refine ⟨by decide, by decide, rfl, by decide, by decide⟩

/-! ## Invariants across a successful apply -/

/-- C8, counterexample: `applyVerifiedAUM` does not re-establish the size
limits.  From states within the limits, `RemoveKey` of the only key succeeds
and leaves no key, `AddKey` on 512 keys succeeds and leaves 513 keys, and
`AddDenylistNodeKey` on 64 entries succeeds and leaves 65 entries. -/
theorem applyVerifiedAUM_limits_counterexample :
    (stateK.withinLimits ∧ ∃ s', stateK.applyVerifiedAUM demoExt removeK = .ok s' ∧
        s'.Keys.len = 0 ∧ ¬ s'.withinLimits) ∧
    ((stateWithKeys manyKeys).withinLimits ∧
      ∃ s', (stateWithKeys manyKeys).applyVerifiedAUM demoExt addK2 = .ok s' ∧
        s'.Keys.len = 513 ∧ ¬ s'.withinLimits) ∧
    ((stateWithDeny manyNodeKeys).withinLimits ∧
      ∃ s', (stateWithDeny manyNodeKeys).applyVerifiedAUM demoExt addDeny = .ok s' ∧
        s'.BannedNodekeys.len = 65 ∧ ¬ s'.withinLimits) := by
  have eK : ∀ ks, (stateWithKeys ks).Keys.elems = ks := fun _ => rfl
  have eKd : ∀ ks, (stateWithKeys ks).DisablementSecrets.elems = [demoSecret] := fun _ => rfl
  have eKb : ∀ ks, (stateWithKeys ks).BannedNodekeys.elems = [] := fun _ => rfl
  have pK : ∀ ks, (stateWithKeys ks).parentMatches addK2 = true := fun _ => rfl
  have eD : ∀ nks, (stateWithDeny nks).BannedNodekeys.elems = nks := fun _ => rfl
  have eDd : ∀ nks, (stateWithDeny nks).DisablementSecrets.elems = [demoSecret] := fun _ => rfl
  have eDk : ∀ nks, (stateWithDeny nks).Keys.elems = [keyK] := fun _ => rfl
  have pD : ∀ nks, (stateWithDeny nks).parentMatches addDeny = true := fun _ => rfl
  have lK : manyKeys.length = 512 := by
    unfold manyKeys
    rw [List.length_map, List.length_range]
  have lD : manyNodeKeys.length = 64 := by
    unfold manyNodeKeys
    rw [List.length_map, List.length_range]
  have nK : (stateWithKeys manyKeys).Keys.len = 512 := by
    unfold Slice.len
    rw [eK, lK]
  have nD : (stateWithDeny manyNodeKeys).BannedNodekeys.len = 64 := by
    unfold Slice.len
    rw [eD, lD]
  refine ⟨⟨?_, ?_⟩, ⟨?_, ?_⟩, ⟨?_, ?_⟩⟩
  · simp [State.withinLimits, stateK, Slice.len, Slice.elems]
  · refine ⟨{ stateK with LastAUMHash := some (demoExt.Hash removeK), Keys := .mk [] },
      by decide, rfl, ?_⟩
    simp [State.withinLimits, Slice.len, Slice.elems]
  · refine ⟨⟨?_, ?_⟩, ⟨?_, ?_⟩, ?_⟩
    · unfold Slice.len; rw [eKd]; simp
    · unfold Slice.len; rw [eKd]; simp
    · omega
    · omega
    · unfold Slice.len; rw [eKb]; simp
  · have hall : ∀ k' ∈ (stateWithKeys manyKeys).Keys.elems,
        k'.ID demoExt ≠ keyK2.ID demoExt := by
      intro k' hk'
      rw [eK] at hk'
      unfold manyKeys at hk'
      obtain ⟨i, _, rfl⟩ := List.mem_map.mp hk'
      simp [Key.ID, demoExt, manyKey, keyK2]
    obtain ⟨s', hok, hlen⟩ := applyVerifiedAUM_addKey_grows demoExt (stateWithKeys manyKeys)
      addK2 keyK2 rfl (pK _) rfl hall
    refine ⟨s', hok, by omega, ?_⟩
    intro hc
    have := hc.2.1.2
    omega
  · refine ⟨⟨?_, ?_⟩, ⟨?_, ?_⟩, ?_⟩
    · unfold Slice.len; rw [eDd]; simp
    · unfold Slice.len; rw [eDd]; simp
    · unfold Slice.len; rw [eDk]; simp
    · unfold Slice.len; rw [eDk]; simp
    · omega
  · have hn : addDeny.NodeKey ∉ (stateWithDeny manyNodeKeys).BannedNodekeys.elems := by
      intro hc
      rw [eD] at hc
      unfold manyNodeKeys at hc
      obtain ⟨i, _, hi⟩ := List.mem_map.mp hc
      simp [addDeny] at hi
    obtain ⟨s', hok, hlen⟩ := applyVerifiedAUM_addDenylist_grows demoExt
      (stateWithDeny manyNodeKeys) addDeny rfl (pD _) hn
    refine ⟨s', hok, by omega, ?_⟩
    intro hc
    have := hc.2.2
    omega

/-- C8, amended: from a state within the size limits, a successful apply (of
a Checkpoint AUM only when its state is accepted by `staticValidateCheckpoint`)
gives a state with 1 to 32 disablement secrets.  For NoOp, Checkpoint and
UpdateKey the result is within all the limits.  AddKey adds exactly one key
and RemoveKey removes exactly one key, the denylist keeping its size;
AddDenylistNodeKey adds exactly one entry and RemoveDenylistNodeKey removes
exactly one entry, the keys keeping their number.  Hence the result has at
most 513 keys and at most 65 banned node keys. -/
theorem applyVerifiedAUM_limits (E : Ext) (s : State) (a : AUM) (s' : State)
    (hs : s.withinLimits)
    (hc : ∀ cs, a.MessageKind = .AUMCheckpoint → a.State = some cs →
      cs.staticValidateCheckpoint E = none)
    (h : s.applyVerifiedAUM E a = .ok s') :
    (1 ≤ s'.DisablementSecrets.len ∧ s'.DisablementSecrets.len ≤ 32) ∧
    ((a.MessageKind = .AUMNoOp ∨ a.MessageKind = .AUMCheckpoint ∨
        a.MessageKind = .AUMUpdateKey) → s'.withinLimits) ∧
    (a.MessageKind = .AUMAddKey →
      s'.Keys.len = s.Keys.len + 1 ∧ s'.BannedNodekeys.len = s.BannedNodekeys.len) ∧
    (a.MessageKind = .AUMRemoveKey →
      s'.Keys.len + 1 = s.Keys.len ∧ s'.BannedNodekeys.len = s.BannedNodekeys.len) ∧
    (a.MessageKind = .AUMAddDenylistNodeKey →
      s'.Keys.len = s.Keys.len ∧ s'.BannedNodekeys.len = s.BannedNodekeys.len + 1) ∧
    (a.MessageKind = .AUMRemoveDenylistNodeKey →
      s'.Keys.len = s.Keys.len ∧ s'.BannedNodekeys.len + 1 = s.BannedNodekeys.len) ∧
    (s'.Keys.len ≤ 513 ∧ s'.BannedNodekeys.len ≤ 65) := by
  have hinv := applyVerifiedAUM_ok_inv E s a s' h
  obtain ⟨⟨hd1, hd2⟩, ⟨hk1, hk2⟩, hb⟩ := hs
  unfold applied at hinv
  cases hk : a.MessageKind with
  | AUMNoOp =>
    simp only [hk] at hinv
    obtain ⟨e1, e2, e3⟩ := hinv
    simp only [State.withinLimits, e1, e2, e3]
    simp
    omega
  | AUMCheckpoint =>
    simp only [hk] at hinv
    obtain ⟨cs, hcs, e1, e2, e3⟩ := hinv
    obtain ⟨_, ⟨c1, c2, _, _⟩, ⟨c3, c4, _, _⟩, c5, _⟩ :=
      (staticValidateCheckpoint_none_iff E cs).mp (hc cs hk hcs)
    simp only [State.withinLimits, e1, e2, e3]
    simp
    omega
  | AUMAddKey =>
    simp only [hk] at hinv
    obtain ⟨k, _, _, e1, e2, e3⟩ := hinv
    simp only [State.withinLimits, e1, e2, e3, Slice.len, Slice.elems, List.length_append,
      List.length_cons, List.length_nil] at *
    simp
    omega
  | AUMUpdateKey =>
    simp only [hk] at hinv
    obtain ⟨k, _, _, _, e1, e2, e3⟩ := hinv
    simp only [State.withinLimits, e1, e2, e3, Slice.len_mapElems]
    simp
    omega
  | AUMRemoveKey =>
    simp only [hk] at hinv
    obtain ⟨pre, k, post, hdec, _, _, e1, e2, e3⟩ := hinv
    have hl : s.Keys.elems.length = pre.length + post.length + 1 := by
      rw [hdec, List.length_append, List.length_cons]
      omega
    simp only [State.withinLimits, e1, e2, e3, Slice.len, hl, List.length_append,
      Slice.elems_mk] at *
    simp
    omega
  | AUMAddDenylistNodeKey =>
    simp only [hk] at hinv
    obtain ⟨_, e1, e2, e3⟩ := hinv
    simp only [State.withinLimits, e1, e2, e3, Slice.len, Slice.elems, List.length_append,
      List.length_cons, List.length_nil] at *
    simp
    omega
  | AUMRemoveDenylistNodeKey =>
    simp only [hk] at hinv
    obtain ⟨pre, post, hdec, _, e1, e2, e3⟩ := hinv
    have hl : s.BannedNodekeys.elems.length = pre.length + post.length + 1 := by
      rw [hdec, List.length_append, List.length_cons]
      omega
    simp only [State.withinLimits, e1, e2, e3, Slice.len, hl, List.length_append,
      Slice.elems_mk] at *
    simp
    omega
  | other n =>
    simp only [hk] at hinv

/-- Witness for the amended C8: removing `K` from the sample state with keys
`K, K2` gives a state with one disablement secret, one key, no denylist. -/
theorem applyVerifiedAUM_limits_witness :
    stateKK2.withinLimits ∧ stateKK2.applyVerifiedAUM demoExt removeK = .ok afterRemoveK ∧
    (1 ≤ afterRemoveK.DisablementSecrets.len ∧ afterRemoveK.DisablementSecrets.len ≤ 32) ∧
    (afterRemoveK.Keys.len + 1 = stateKK2.Keys.len ∧
      afterRemoveK.BannedNodekeys.len = stateKK2.BannedNodekeys.len) :=
  ⟨by decide, by decide,
   (applyVerifiedAUM_limits demoExt stateKK2 removeK afterRemoveK (by decide)
      (fun _ hk _ => absurd hk (by decide)) (by decide)).1,
   (applyVerifiedAUM_limits demoExt stateKK2 removeK afterRemoveK (by decide)
      (fun _ hk _ => absurd hk (by decide)) (by decide)).2.2.2.1 rfl⟩

/-- C9 (uniqueness is preserved): from a state whose keys have pairwise
distinct KeyIDs, whose disablement secrets are pairwise distinct and whose
banned node keys are pairwise distinct, a successful apply (of a Checkpoint
AUM only when its state is accepted by `staticValidateCheckpoint`) gives a
state with the same three properties. -/
theorem applyVerifiedAUM_unique (E : Ext) (s : State) (a : AUM) (s' : State)
    (hs : s.unique E)
    (hc : ∀ cs, a.MessageKind = .AUMCheckpoint → a.State = some cs →
      cs.staticValidateCheckpoint E = none)
    (h : s.applyVerifiedAUM E a = .ok s') : s'.unique E := by
  have hinv := applyVerifiedAUM_ok_inv E s a s' h
  obtain ⟨hks, hds, hbn⟩ := hs
  unfold applied at hinv
  unfold State.unique
  cases hk : a.MessageKind with
  | AUMNoOp =>
    simp only [hk] at hinv
    obtain ⟨e1, e2, e3⟩ := hinv
    rw [e1, e2, e3]
    exact ⟨hks, hds, hbn⟩
  | AUMCheckpoint =>
    simp only [hk] at hinv
    obtain ⟨cs, hcs, e1, e2, e3⟩ := hinv
    obtain ⟨_, ⟨_, _, _, c1⟩, ⟨_, _, _, c2⟩, _, c3⟩ :=
      (staticValidateCheckpoint_none_iff E cs).mp (hc cs hk hcs)
    rw [e1, e2, e3]
    exact ⟨c2, c1, c3⟩
  | AUMAddKey =>
    simp only [hk] at hinv
    obtain ⟨k, _, hnew, e1, e2, e3⟩ := hinv
    rw [e1, e2, e3]
    refine ⟨?_, hds, hbn⟩
    rw [Slice.elems_mk, List.map_append, List.nodup_append]
    refine ⟨hks, by simp, ?_⟩
    intro x hx1 hx2
    obtain ⟨k', hk', rfl⟩ := List.mem_map.mp hx1
    simp only [List.map_cons, List.map_nil, List.mem_singleton] at hx2
    exact hnew k' hk' hx2
  | AUMUpdateKey =>
    simp only [hk] at hinv
    obtain ⟨k, _, hid, _, e1, e2, e3⟩ := hinv
    rw [e1, e2, e3]
    refine ⟨?_, hds, hbn⟩
    have hid' : (k.overlay a.Votes a.Meta).ID E = a.KeyID := by rw [overlay_ID, hid]
    cases hsk : s.Keys with
    | nil => simp [Slice.mapElems, Slice.elems]
    | mk l =>
      rw [hsk] at hks
      simp only [Slice.mapElems, Slice.elems_mk] at hks ⊢
      rw [map_ID_update E a.KeyID _ hid' l]
      exact hks
  | AUMRemoveKey =>
    simp only [hk] at hinv
    obtain ⟨pre, k, post, hdec, _, _, e1, e2, e3⟩ := hinv
    rw [e1, e2, e3]
    refine ⟨?_, hds, hbn⟩
    rw [hdec] at hks
    rw [Slice.elems_mk]
    exact hks.sublist (((List.sublist_cons_self k post).append_left pre).map (Key.ID E))
  | AUMAddDenylistNodeKey =>
    simp only [hk] at hinv
    obtain ⟨hnew, e1, e2, e3⟩ := hinv
    rw [e1, e2, e3]
    refine ⟨hks, hds, ?_⟩
    rw [Slice.elems_mk, List.nodup_append]
    refine ⟨hbn, by simp, ?_⟩
    intro x hx1 hx2
    simp only [List.mem_singleton] at hx2
    subst hx2
    exact hnew hx1
  | AUMRemoveDenylistNodeKey =>
    simp only [hk] at hinv
    obtain ⟨pre, post, hdec, _, e1, e2, e3⟩ := hinv
    rw [e1, e2, e3]
    refine ⟨hks, hds, ?_⟩
    rw [hdec] at hbn
    rw [Slice.elems_mk]
    exact hbn.sublist ((List.sublist_cons_self a.NodeKey post).append_left pre)
  | other n =>
    simp only [hk] at hinv

/-- Witness for C9: the sample state is unique, `AddKey(K2)` succeeds on it,
and the resulting state with keys `K, K2` is unique again. -/
theorem applyVerifiedAUM_unique_witness :
    stateK.unique demoExt ∧ stateK.applyVerifiedAUM demoExt addK2 = .ok afterAddK2 ∧
    afterAddK2.unique demoExt :=
  ⟨by decide, by decide,
   applyVerifiedAUM_unique demoExt stateK addK2 afterAddK2 (by decide)
     (fun _ hk _ => absurd hk (by decide)) (by decide)⟩

/-! ## Denylist AUMs -/

/-- C11 (AddDenylistNodeKey): for a parent-matching `AddDenylistNodeKey` AUM,
the call fails with the entry-already-exists error exactly when the node key
is byte-equal to some element of `BannedNodekeys`; otherwise it succeeds with
`BannedNodekeys` equal to the old entries followed by the node key as last
element. -/
theorem applyVerifiedAUM_addDenylist (E : Ext) (s : State) (a : AUM)
    (hk : a.MessageKind = .AUMAddDenylistNodeKey) (hp : s.parentMatches a = true) :
    (s.applyVerifiedAUM E a = .err .entryAlreadyExists ↔ a.NodeKey ∈ s.BannedNodekeys.elems) ∧
    (a.NodeKey ∉ s.BannedNodekeys.elems →
      ∃ s', s.applyVerifiedAUM E a = .ok s' ∧
        s'.BannedNodekeys = .mk (s.BannedNodekeys.elems ++ [a.NodeKey]) ∧
        s'.BannedNodekeys.elems = s.BannedNodekeys.elems ++ [a.NodeKey]) := by
  have hsucc : a.NodeKey ∉ s.BannedNodekeys.elems →
      ∃ s', s.applyVerifiedAUM E a = .ok s' ∧
        s'.BannedNodekeys = .mk (s.BannedNodekeys.elems ++ [a.NodeKey]) ∧
        s'.BannedNodekeys.elems = s.BannedNodekeys.elems ++ [a.NodeKey] :=
    fun hn => ⟨_, applyVerifiedAUM_addDenylist_ok E s a hk hp hn, rfl, rfl⟩
  refine ⟨⟨?_, ?_⟩, hsucc⟩
  · intro herr
    by_contra hn
    obtain ⟨s', hok, _⟩ := hsucc hn
    rw [hok] at herr
    cases herr
  · intro hmem
    have hany : s.BannedNodekeys.elems.any (fun nk => bytesEqual a.NodeKey nk) = true := by
      rw [List.any_eq_true]
      exact ⟨a.NodeKey, hmem, (bytesEqual_iff _ _).mpr rfl⟩
    simp [State.applyVerifiedAUM, hp, hk, hany]

/-- Witness for C11: banning `[0, 0]` on the sample state, which bans nothing,
succeeds with the single entry `[0, 0]`; on a state already banning it, the
call is refused. -/
theorem applyVerifiedAUM_addDenylist_witness :
    (∃ s', stateK.applyVerifiedAUM demoExt addDeny = .ok s' ∧
        s'.BannedNodekeys = .mk (stateK.BannedNodekeys.elems ++ [addDeny.NodeKey]) ∧
        s'.BannedNodekeys.elems = stateK.BannedNodekeys.elems ++ [addDeny.NodeKey]) ∧
    stateBanned.applyVerifiedAUM demoExt addDeny = .err .entryAlreadyExists :=
  ⟨(applyVerifiedAUM_addDenylist demoExt stateK addDeny rfl (by decide)).2 (by decide),
   (applyVerifiedAUM_addDenylist demoExt stateBanned addDeny rfl (by decide)).1.mpr
     (by decide)⟩

/-- C12 (RemoveDenylistNodeKey): for a parent-matching `RemoveDenylistNodeKey`
AUM, the call fails with the no-such-entry error exactly when no element of
`BannedNodekeys` is byte-equal to the node key; otherwise it succeeds with
`BannedNodekeys` equal to the old entries with the first one equal to the node
key deleted, the others in their original relative order. -/
theorem applyVerifiedAUM_removeDenylist (E : Ext) (s : State) (a : AUM)
    (hk : a.MessageKind = .AUMRemoveDenylistNodeKey) (hp : s.parentMatches a = true) :
    (s.applyVerifiedAUM E a = .err .noSuchEntry ↔ a.NodeKey ∉ s.BannedNodekeys.elems) ∧
    (a.NodeKey ∈ s.BannedNodekeys.elems →
      ∃ s' pre post, s.applyVerifiedAUM E a = .ok s' ∧
        s.BannedNodekeys.elems = pre ++ a.NodeKey :: post ∧ a.NodeKey ∉ pre ∧
        s'.BannedNodekeys = .mk (pre ++ post) ∧
        s'.BannedNodekeys.elems = s.BannedNodekeys.elems.erase a.NodeKey ∧
        s'.BannedNodekeys.elems.length + 1 = s.BannedNodekeys.elems.length ∧
        List.Sublist s'.BannedNodekeys.elems s.BannedNodekeys.elems) := by
  have hsucc : a.NodeKey ∈ s.BannedNodekeys.elems →
      ∃ s' pre post, s.applyVerifiedAUM E a = .ok s' ∧
        s.BannedNodekeys.elems = pre ++ a.NodeKey :: post ∧ a.NodeKey ∉ pre ∧
        s'.BannedNodekeys = .mk (pre ++ post) ∧
        s'.BannedNodekeys.elems = s.BannedNodekeys.elems.erase a.NodeKey ∧
        s'.BannedNodekeys.elems.length + 1 = s.BannedNodekeys.elems.length ∧
        List.Sublist s'.BannedNodekeys.elems s.BannedNodekeys.elems := by
    intro hmem
    obtain ⟨pre, x, post, hdec, hx, hpre⟩ :=
      exists_first (fun nk : Bytes => nk = a.NodeKey) s.BannedNodekeys.elems
        ⟨a.NodeKey, hmem, rfl⟩
    subst hx
    have hpre' : a.NodeKey ∉ pre := fun hc => hpre _ hc rfl
    refine ⟨_, pre, post, applyVerifiedAUM_removeDenylist_ok E s a pre post hk hp hdec hpre',
      hdec, hpre', rfl, ?_, ?_, ?_⟩
    · rw [Slice.elems_mk, hdec, List.erase_append_right _ hpre', List.erase_cons_head]
    · rw [Slice.elems_mk, hdec]
      simp only [List.length_append, List.length_cons]
      omega
    · rw [Slice.elems_mk, hdec]
      exact (List.sublist_cons_self _ post).append_left pre
  refine ⟨⟨?_, ?_⟩, hsucc⟩
  · intro herr hmem
    obtain ⟨s', _, _, hok, _⟩ := hsucc hmem
    rw [hok] at herr
    cases herr
  · intro hn
    have hf : findIdxFrom (fun nk => bytesEqual a.NodeKey nk) 0 s.BannedNodekeys.elems =
        none := by
      rw [findIdxFrom_none]
      intro x hx
      exact (bytesEqual_false_iff _ _).mpr (fun hc => hn (hc ▸ hx))
    simp [State.applyVerifiedAUM, hp, hk, hf]

/-- Witness for C12: removing `[0, 0]` from the denylist `[3], [0, 0], [4]`
succeeds, and removing it from the sample state, which bans nothing, fails
with the no-such-entry error. -/
theorem applyVerifiedAUM_removeDenylist_witness :
    (∃ s' pre post, stateBanned.applyVerifiedAUM demoExt removeDeny = .ok s' ∧
        stateBanned.BannedNodekeys.elems = pre ++ removeDeny.NodeKey :: post ∧
        removeDeny.NodeKey ∉ pre ∧
        s'.BannedNodekeys = .mk (pre ++ post) ∧
        s'.BannedNodekeys.elems = stateBanned.BannedNodekeys.elems.erase removeDeny.NodeKey ∧
        s'.BannedNodekeys.elems.length + 1 = stateBanned.BannedNodekeys.elems.length ∧
        List.Sublist s'.BannedNodekeys.elems stateBanned.BannedNodekeys.elems) ∧
    stateK.applyVerifiedAUM demoExt removeDeny = .err .noSuchEntry :=
  ⟨(applyVerifiedAUM_removeDenylist demoExt stateBanned removeDeny rfl (by decide)).2
     (by decide),
   (applyVerifiedAUM_removeDenylist demoExt stateK removeDeny rfl (by decide)).1.mpr
     (by decide)⟩

/-- C13 (denylist round trip): when the node key `N` is not banned in `s`,
`AddDenylistNodeKey(N)` chained to `s` followed by `RemoveDenylistNodeKey(N)`
chained to the first result both succeed; the final `BannedNodekeys` holds
exactly the entries of `s` in the same order (as a non-nil slice, empty when
`s` had none), and `Keys` and `DisablementSecrets` are those of `s`. -/
theorem denylist_round_trip (E : Ext) (s : State) (a1 a2 : AUM)
    (hk1 : a1.MessageKind = .AUMAddDenylistNodeKey) (hp1 : s.parentMatches a1 = true)
    (hk2 : a2.MessageKind = .AUMRemoveDenylistNodeKey)
    (hchain : a2.PrevAUMHash = (E.Hash a1).bytes)
    (hN : a2.NodeKey = a1.NodeKey) (hnew : a1.NodeKey ∉ s.BannedNodekeys.elems) :
    ∃ s1 s2, s.applyVerifiedAUM E a1 = .ok s1 ∧ s1.applyVerifiedAUM E a2 = .ok s2 ∧
      s2.BannedNodekeys.elems = s.BannedNodekeys.elems ∧
      s2.BannedNodekeys = .mk s.BannedNodekeys.elems ∧
      s2.Keys = s.Keys ∧ s2.DisablementSecrets = s.DisablementSecrets := by
  have h1 := applyVerifiedAUM_addDenylist_ok E s a1 hk1 hp1 hnew
  have hp2 := parentMatches_of_prev
    { LastAUMHash := some (E.Hash a1), DisablementSecrets := s.DisablementSecrets,
      Keys := s.Keys, BannedNodekeys := .mk (s.BannedNodekeys.elems ++ [a1.NodeKey]) }
    a2 (E.Hash a1) rfl hchain
  have h2 := applyVerifiedAUM_removeDenylist_ok E _ a2 s.BannedNodekeys.elems [] hk2 hp2
    (by rw [hN]; rfl) (by rw [hN]; exact hnew)
  refine ⟨_, _, h1, h2, ?_, ?_, rfl, rfl⟩
  · simp [Slice.elems_mk]
  · simp

/-- Witness for C13: on the sample state, which bans nothing, banning `[0, 0]`
and then lifting the ban both succeed and leave an empty denylist. -/
theorem denylist_round_trip_witness :
    ∃ s1 s2, stateK.applyVerifiedAUM demoExt addDeny = .ok s1 ∧
      s1.applyVerifiedAUM demoExt removeDenyNext = .ok s2 ∧
      s2.BannedNodekeys.elems = stateK.BannedNodekeys.elems ∧
      s2.BannedNodekeys = .mk stateK.BannedNodekeys.elems ∧
      s2.Keys = stateK.Keys ∧ s2.DisablementSecrets = stateK.DisablementSecrets :=
  denylist_round_trip demoExt stateK addDeny removeDenyNext rfl (by decide) rfl rfl rfl
    (by decide)

/-! ## Lookups, NoOp, disablement, unknown kinds -/

/-- C15 (GetKey): `GetKey` returns `ErrNoSuchKey` exactly when no key of the
state has a KeyID byte-equal to `id`, and returns no other error; otherwise it
returns the first key whose KeyID equals `id`, which is an element of `Keys`
with KeyID `id`. -/
theorem GetKey_first (E : Ext) (s : State) (id : Bytes) :
    (s.GetKey E id = .error .ErrNoSuchKey ↔ ∀ k ∈ s.Keys.elems, k.ID E ≠ id) ∧
    (∀ e, s.GetKey E id = .error e → e = .ErrNoSuchKey) ∧
    ((∃ k ∈ s.Keys.elems, k.ID E = id) →
      ∃ pre k post, s.GetKey E id = .ok k ∧ s.Keys.elems = pre ++ k :: post ∧
        (∀ x ∈ pre, x.ID E ≠ id) ∧ k ∈ s.Keys.elems ∧ k.ID E = id) := by
  refine ⟨⟨?_, ?_⟩, ?_, ?_⟩
  · intro h
    exact (getKeyLoop_error E id s.Keys.elems _ h).2
  · intro h
    exact getKeyLoop_error_of_forall E id s.Keys.elems h
  · intro e h
    exact (getKeyLoop_error E id s.Keys.elems e h).1
  · intro hex
    obtain ⟨pre, k, post, hdec, hid, hpre⟩ :=
      exists_first (fun k : Key => k.ID E = id) s.Keys.elems hex
    refine ⟨pre, k, post, ?_, hdec, hpre, by simp [hdec], hid⟩
    unfold State.GetKey
    rw [hdec]
    exact getKeyLoop_of_first E id pre post k hid hpre

/-- Witness for C15: in the sample state with keys `K, K2`, looking up the ID
of `K2` returns `K2`, and an unknown ID gives `ErrNoSuchKey`. -/
theorem GetKey_first_witness :
    (∃ pre k post, stateKK2.GetKey demoExt [2] = .ok k ∧
        stateKK2.Keys.elems = pre ++ k :: post ∧
        (∀ x ∈ pre, x.ID demoExt ≠ [2]) ∧ k ∈ stateKK2.Keys.elems ∧ k.ID demoExt = [2]) ∧
    stateKK2.GetKey demoExt [9] = .error .ErrNoSuchKey :=
  ⟨(GetKey_first demoExt stateKK2 [2]).2.2 ⟨keyK2, by decide, by decide⟩,
   (GetKey_first demoExt stateKK2 [9]).1.mpr (by decide)⟩

/-- C16 (NoOp): a parent-matching `NoOp` AUM always succeeds, and the result
differs from the old state only in `LastAUMHash`: `Keys`, `DisablementSecrets`
and `BannedNodekeys` are those of the old state, so `checkDisablement` answers
the same on both for every secret. -/
theorem applyVerifiedAUM_noOp (E : Ext) (s : State) (a : AUM)
    (hk : a.MessageKind = .AUMNoOp) (hp : s.parentMatches a = true) :
    ∃ s', s.applyVerifiedAUM E a = .ok s' ∧
      s' = { s with LastAUMHash := some (E.Hash a) } ∧
      s'.Keys = s.Keys ∧ s'.DisablementSecrets = s.DisablementSecrets ∧
      s'.BannedNodekeys = s.BannedNodekeys ∧
      ∀ secret, s'.checkDisablement E secret = s.checkDisablement E secret := by
  refine ⟨{ s with LastAUMHash := some (E.Hash a) }, ?_, rfl, rfl, rfl, rfl, fun _ => rfl⟩
  simp [State.applyVerifiedAUM, hp, hk, cloneForUpdate_eq]

/-- Witness for C16: `NoOp` applied to the sample state succeeds and keeps the
keys, the disablement secrets and the denylist. -/
theorem applyVerifiedAUM_noOp_witness :
    ∃ s', stateK.applyVerifiedAUM demoExt noOp = .ok s' ∧
      s' = { stateK with LastAUMHash := some (demoExt.Hash noOp) } ∧
      s'.Keys = stateK.Keys ∧ s'.DisablementSecrets = stateK.DisablementSecrets ∧
      s'.BannedNodekeys = stateK.BannedNodekeys ∧
      ∀ secret, s'.checkDisablement demoExt secret = stateK.checkDisablement demoExt secret :=
  applyVerifiedAUM_noOp demoExt stateK noOp rfl (by decide)

/-- C17 (checkDisablement): `checkDisablement` is true exactly when the value
derived from the secret by `disablementKDF` is byte-equal to some element of
`DisablementSecrets`; in particular it is false for every secret when
`DisablementSecrets` is nil or empty. -/
theorem checkDisablement_iff (E : Ext) (s : State) (secret : Bytes) :
    (s.checkDisablement E secret = true ↔
      E.disablementKDF secret ∈ s.DisablementSecrets.elems) ∧
    (s.DisablementSecrets = .nil → s.checkDisablement E secret = false) ∧
    (s.DisablementSecrets = .mk [] → s.checkDisablement E secret = false) := by
  refine ⟨?_, ?_, ?_⟩
  · unfold State.checkDisablement
    exact any_bytesEqual_true _ _
  · intro h
    simp [State.checkDisablement, h, Slice.elems]
  · intro h
    simp [State.checkDisablement, h, Slice.elems]

/-- Witness for C17: on the sample state the secret deriving to the stored
verifier is accepted, another secret is refused, and the pre-genesis state,
which has no disablement secret, refuses it too. -/
theorem checkDisablement_iff_witness :
    stateK.checkDisablement demoExt goodSecret = true ∧
    ¬ (stateK.checkDisablement demoExt wrongSecret = true) ∧
    emptyState.checkDisablement demoExt goodSecret = false :=
  ⟨(checkDisablement_iff demoExt stateK goodSecret).1.mpr (by decide),
   fun h => absurd ((checkDisablement_iff demoExt stateK wrongSecret).1.mp h) (by decide),
   (checkDisablement_iff demoExt emptyState goodSecret).2.1 rfl⟩

/-- C18 (unknown message kinds): a parent-matching AUM whose kind is none of
NoOp, Checkpoint, AddKey, UpdateKey, RemoveKey, AddDenylistNodeKey and
RemoveDenylistNodeKey is answered with the unhandled-message error, never with
a state. -/
theorem applyVerifiedAUM_unknown (E : Ext) (s : State) (a : AUM)
    (hp : s.parentMatches a = true)
    (h1 : a.MessageKind ≠ .AUMNoOp) (h2 : a.MessageKind ≠ .AUMCheckpoint)
    (h3 : a.MessageKind ≠ .AUMAddKey) (h4 : a.MessageKind ≠ .AUMUpdateKey)
    (h5 : a.MessageKind ≠ .AUMRemoveKey) (h6 : a.MessageKind ≠ .AUMAddDenylistNodeKey)
    (h7 : a.MessageKind ≠ .AUMRemoveDenylistNodeKey) :
    s.applyVerifiedAUM E a = .err (.unhandledMessage a.MessageKind) ∧
    ∀ s', s.applyVerifiedAUM E a ≠ .ok s' := by
  have herr : s.applyVerifiedAUM E a = .err (.unhandledMessage a.MessageKind) := by
    cases hk : a.MessageKind with
    | other n => simp [State.applyVerifiedAUM, hp, hk]
    | AUMNoOp => exact absurd hk h1
    | AUMCheckpoint => exact absurd hk h2
    | AUMAddKey => exact absurd hk h3
    | AUMUpdateKey => exact absurd hk h4
    | AUMRemoveKey => exact absurd hk h5
    | AUMAddDenylistNodeKey => exact absurd hk h6
    | AUMRemoveDenylistNodeKey => exact absurd hk h7
  refine ⟨herr, ?_⟩
  intro s' hok
  rw [herr] at hok
  cases hok

/-- Witness for C18: an AUM of kind 200 chained to the sample state is
answered with the unhandled-message error. -/
theorem applyVerifiedAUM_unknown_witness :
    stateK.applyVerifiedAUM demoExt unknownAUM = .err (.unhandledMessage unknownAUM.MessageKind) ∧
    ∀ s', stateK.applyVerifiedAUM demoExt unknownAUM ≠ .ok s' :=
  applyVerifiedAUM_unknown demoExt stateK unknownAUM (by decide) (by decide) (by decide)
    (by decide) (by decide) (by decide) (by decide) (by decide)

/-! ## Frame -/

/-- C19 (each kind touches only its own sequence): after a successful apply,
AddKey, UpdateKey and RemoveKey leave `BannedNodekeys` and `DisablementSecrets`
as they were, AddDenylistNodeKey and RemoveDenylistNodeKey leave `Keys` and
`DisablementSecrets` as they were; hence `DisablementSecrets` changes only
through a Checkpoint AUM. -/
theorem applyVerifiedAUM_frame (E : Ext) (s : State) (a : AUM) (s' : State)
    (h : s.applyVerifiedAUM E a = .ok s') :
    ((a.MessageKind = .AUMAddKey ∨ a.MessageKind = .AUMUpdateKey ∨
        a.MessageKind = .AUMRemoveKey) →
      s'.BannedNodekeys = s.BannedNodekeys ∧ s'.DisablementSecrets = s.DisablementSecrets) ∧
    ((a.MessageKind = .AUMAddDenylistNodeKey ∨ a.MessageKind = .AUMRemoveDenylistNodeKey) →
      s'.Keys = s.Keys ∧ s'.DisablementSecrets = s.DisablementSecrets) ∧
    (s'.DisablementSecrets ≠ s.DisablementSecrets → a.MessageKind = .AUMCheckpoint) := by
  have hinv := applyVerifiedAUM_ok_inv E s a s' h
  unfold applied at hinv
  cases hk : a.MessageKind with
  | AUMNoOp =>
    simp only [hk] at hinv
    obtain ⟨e1, _, _⟩ := hinv
    simp [e1]
  | AUMCheckpoint => simp
  | AUMAddKey =>
    simp only [hk] at hinv
    obtain ⟨_, _, _, e1, _, e3⟩ := hinv
    simp [e1, e3]
  | AUMUpdateKey =>
    simp only [hk] at hinv
    obtain ⟨_, _, _, _, e1, _, e3⟩ := hinv
    simp [e1, e3]
  | AUMRemoveKey =>
    simp only [hk] at hinv
    obtain ⟨_, _, _, _, _, _, e1, _, e3⟩ := hinv
    simp [e1, e3]
  | AUMAddDenylistNodeKey =>
    simp only [hk] at hinv
    obtain ⟨_, e1, e2, _⟩ := hinv
    simp [e1, e2]
  | AUMRemoveDenylistNodeKey =>
    simp only [hk] at hinv
    obtain ⟨_, _, _, _, e1, e2, _⟩ := hinv
    simp [e1, e2]
  | other n =>
    simp only [hk] at hinv

/-- Witness for C19: `AddKey(K2)` on the sample state leaves the denylist and
the disablement secrets as they were. -/
theorem applyVerifiedAUM_frame_witness :
    stateK.applyVerifiedAUM demoExt addK2 = .ok afterAddK2 ∧
    afterAddK2.BannedNodekeys = stateK.BannedNodekeys ∧
    afterAddK2.DisablementSecrets = stateK.DisablementSecrets :=
  ⟨by decide,
   (applyVerifiedAUM_frame demoExt stateK addK2 afterAddK2 (by decide)).1 (Or.inl rfl)⟩

/-! ## Order of the validation errors -/

/-- C14 (first offending reason): `staticValidateCheckpoint` reports, in this
order: a present `LastAUMHash`, whatever else is wrong; otherwise a violation
among the disablement secrets (none, more than 32, or at the smallest
offending index a wrong length or a duplicate), whatever the keys and the
denylist are; otherwise, the secrets being fine, a violation among the keys
(none, more than 512, or at the smallest offending index a failed
`StaticValidate` or a duplicated KeyID), whatever the denylist is; otherwise a
violation of the denylist (more than 64 entries, or a duplicate at the
smallest offending index). -/
theorem staticValidateCheckpoint_first_error (E : Ext) (s : State) :
    (s.LastAUMHash ≠ none → s.staticValidateCheckpoint E = some .cannotSpecifyParent) ∧
    (s.LastAUMHash = none →
      (s.DisablementSecrets.len = 0 →
        s.staticValidateCheckpoint E = some .noDisablementSecret) ∧
      (32 < s.DisablementSecrets.len →
        s.staticValidateCheckpoint E =
          some (.tooManyDisablementSecrets s.DisablementSecrets.len)) ∧
      (1 ≤ s.DisablementSecrets.len → s.DisablementSecrets.len ≤ 32 →
        ∀ i, secretOffends s.DisablementSecrets.elems i →
          (∀ i', i' < i → ¬ secretOffends s.DisablementSecrets.elems i') →
          ∃ x, s.DisablementSecrets.elems[i]? = some x ∧
            ((x.length ≠ 32 ∧ s.staticValidateCheckpoint E =
                some (.disablementInvalidLength i x.length)) ∨
             (x.length = 32 ∧ ∃ j, j ≠ i ∧ s.DisablementSecrets.elems[j]? = some x ∧
                s.staticValidateCheckpoint E = some (.disablementDuplicate i j))))) ∧
    (s.LastAUMHash = none → secretsFine s →
      (s.Keys.len = 0 → s.staticValidateCheckpoint E = some .noKeys) ∧
      (512 < s.Keys.len → s.staticValidateCheckpoint E = some (.tooManyKeys s.Keys.len)) ∧
      (1 ≤ s.Keys.len → s.Keys.len ≤ 512 →
        ∀ i, keyOffends E s.Keys.elems i →
          (∀ i', i' < i → ¬ keyOffends E s.Keys.elems i') →
          ∃ k, s.Keys.elems[i]? = some k ∧
            ((∃ cause, E.StaticValidate k = some cause ∧
                s.staticValidateCheckpoint E = some (.keyInvalid i cause)) ∨
             (E.StaticValidate k = none ∧
                ∃ j k2, j ≠ i ∧ s.Keys.elems[j]? = some k2 ∧ k2.ID E = k.ID E ∧
                  s.staticValidateCheckpoint E = some (.keyDuplicate i j))))) ∧
    (s.LastAUMHash = none → secretsFine s → keysFine E s →
      (64 < s.BannedNodekeys.len →
        s.staticValidateCheckpoint E = some (.tooManyDenylist s.BannedNodekeys.len)) ∧
      (s.BannedNodekeys.len ≤ 64 →
        ∀ i, entryOffends s.BannedNodekeys.elems i →
          (∀ i', i' < i → ¬ entryOffends s.BannedNodekeys.elems i') →
          ∃ x j, s.BannedNodekeys.elems[i]? = some x ∧ j ≠ i ∧
            s.BannedNodekeys.elems[j]? = some x ∧
            s.staticValidateCheckpoint E = some (.denylistDuplicate i j))) := by
  refine ⟨?_, ?_, ?_, ?_⟩
  · intro hl
    cases hs : s.LastAUMHash with
    | none => exact absurd hs hl
    | some h => simp [State.staticValidateCheckpoint, hs]
  · intro hl
    refine ⟨?_, ?_, ?_⟩
    · intro h0
      simp [State.staticValidateCheckpoint, hl, h0]
    · intro hbig
      have h0 : ¬ s.DisablementSecrets.len = 0 := by omega
      simp [State.staticValidateCheckpoint, hl, h0, maxDisablementSecrets, hbig]
    · intro h1 h32 i hoff hmin
      have h0 : ¬ s.DisablementSecrets.len = 0 := by omega
      have hbig : ¬ s.DisablementSecrets.len > 32 := by omega
      obtain ⟨x, hx, hcase⟩ := checkSecretsFrom_first s.DisablementSecrets.elems i hoff hmin
      have hres : ∀ e, checkSecretsFrom s.DisablementSecrets.elems 0
          s.DisablementSecrets.elems = some e → s.staticValidateCheckpoint E = some e := by
        intro e he
        simp [State.staticValidateCheckpoint, hl, h0, maxDisablementSecrets, hbig, he]
      refine ⟨x, hx, ?_⟩
      rcases hcase with ⟨hlen, he⟩ | ⟨hlen, j, hj, hy, _, he⟩
      · exact Or.inl ⟨hlen, hres _ he⟩
      · exact Or.inr ⟨hlen, j, hj, hy, hres _ he⟩
  · intro hl hsec
    obtain ⟨s1, s32, sfine⟩ := hsec
    have h0 : ¬ s.DisablementSecrets.len = 0 := by omega
    have hbig : ¬ s.DisablementSecrets.len > 32 := by omega
    have hsn := (checkSecretsFrom_none_iff_fine s.DisablementSecrets.elems).mpr sfine
    refine ⟨?_, ?_, ?_⟩
    · intro k0
      simp [State.staticValidateCheckpoint, hl, h0, maxDisablementSecrets, hbig, hsn, k0]
    · intro kbig
      have k0 : ¬ s.Keys.len = 0 := by omega
      simp [State.staticValidateCheckpoint, hl, h0, maxDisablementSecrets, hbig, hsn, k0,
        maxKeys, kbig]
    · intro k1 k512 i hoff hmin
      have k0 : ¬ s.Keys.len = 0 := by omega
      have kbig : ¬ s.Keys.len > 512 := by omega
      obtain ⟨k, hk, hcase⟩ := checkKeysFrom_first E s.Keys.elems i hoff hmin
      have hres : ∀ e, checkKeysFrom E s.Keys.elems 0 s.Keys.elems = some e →
          s.staticValidateCheckpoint E = some e := by
        intro e he
        simp [State.staticValidateCheckpoint, hl, h0, maxDisablementSecrets, hbig, hsn, k0,
          maxKeys, kbig, he]
      refine ⟨k, hk, ?_⟩
      rcases hcase with ⟨cause, hc, he⟩ | ⟨hv, j, k2, hj, hy, hid, _, he⟩
      · exact Or.inl ⟨cause, hc, hres _ he⟩
      · exact Or.inr ⟨hv, j, k2, hj, hy, hid, hres _ he⟩
  · intro hl hsec hkeys
    obtain ⟨s1, s32, sfine⟩ := hsec
    obtain ⟨k1, k512, kfine⟩ := hkeys
    have h0 : ¬ s.DisablementSecrets.len = 0 := by omega
    have hbig : ¬ s.DisablementSecrets.len > 32 := by omega
    have hsn := (checkSecretsFrom_none_iff_fine s.DisablementSecrets.elems).mpr sfine
    have k0 : ¬ s.Keys.len = 0 := by omega
    have kbig : ¬ s.Keys.len > 512 := by omega
    have hkn := (checkKeysFrom_none_iff_fine E s.Keys.elems).mpr kfine
    refine ⟨?_, ?_⟩
    · intro bbig
      simp [State.staticValidateCheckpoint, hl, h0, maxDisablementSecrets, hbig, hsn, k0,
        maxKeys, kbig, hkn, maxDenylistEntries, bbig]
    · intro b64 i hoff hmin
      have bbig : ¬ s.BannedNodekeys.len > 64 := by omega
      obtain ⟨x, j, hx, hj, hy, _, he⟩ :=
        checkDenylistFrom_first s.BannedNodekeys.elems i hoff hmin
      refine ⟨x, j, hx, hj, hy, ?_⟩
      simp [State.staticValidateCheckpoint, hl, h0, maxDisablementSecrets, hbig, hsn, k0,
        maxKeys, kbig, hkn, maxDenylistEntries, bbig, he]

/-- Witness for C14: a state wrong at every stage is refused for its parent;
without the parent it is refused for secret 0, which duplicates secret 2,
although secret 1 is too short, there is no key and the denylist repeats. -/
theorem staticValidateCheckpoint_first_error_witness :
    allWrongState.staticValidateCheckpoint demoExt = some .cannotSpecifyParent ∧
    ∃ x, secretsWrongState.DisablementSecrets.elems[0]? = some x ∧
      ((x.length ≠ 32 ∧ secretsWrongState.staticValidateCheckpoint demoExt =
          some (.disablementInvalidLength 0 x.length)) ∨
       (x.length = 32 ∧ ∃ j, j ≠ 0 ∧ secretsWrongState.DisablementSecrets.elems[j]? = some x ∧
          secretsWrongState.staticValidateCheckpoint demoExt =
            some (.disablementDuplicate 0 j))) :=
  ⟨(staticValidateCheckpoint_first_error demoExt allWrongState).1 (by decide),
   ((staticValidateCheckpoint_first_error demoExt secretsWrongState).2.1 rfl).2.2
     (by decide) (by decide) 0
     ⟨demoSecret, rfl, Or.inr ⟨2, demoSecret, by decide, rfl, rfl⟩⟩
     (fun i' hlt => absurd hlt (Nat.not_lt_zero i'))⟩

/-! ## Key AUMs and lookups -/

/-- C20 (key AUMs agree with `GetKey`): for a state whose keys have pairwise
distinct KeyIDs, after a successful AddKey of `K` the lookup of `K`'s ID
returns `K`; after a successful RemoveKey of `id` the lookup of `id` returns
`ErrNoSuchKey`; and the lookup of every other KeyID gives the same result on
the new state as on the old one.  The uniqueness hypothesis is needed for
RemoveKey: on a state with two keys of one KeyID, removing that KeyID succeeds
and the lookup still finds the second key. -/
theorem GetKey_after_key_AUM (E : Ext) (s : State) (a : AUM) (s' : State)
    (hu : (s.Keys.elems.map (Key.ID E)).Nodup)
    (h : s.applyVerifiedAUM E a = .ok s') :
    (a.MessageKind = .AUMAddKey →
      ∃ K, a.Key = some K ∧ s'.GetKey E (K.ID E) = .ok K ∧
        ∀ id, id ≠ K.ID E → s'.GetKey E id = s.GetKey E id) ∧
    (a.MessageKind = .AUMRemoveKey →
      s'.GetKey E a.KeyID = .error .ErrNoSuchKey ∧
        ∀ id, id ≠ a.KeyID → s'.GetKey E id = s.GetKey E id) ∧
    (dupState.applyVerifiedAUM demoExt removeK = .ok afterRemoveDup ∧
      afterRemoveDup.GetKey demoExt removeK.KeyID = .ok keyKdup) := by
  have hinv := applyVerifiedAUM_ok_inv E s a s' h
  unfold applied at hinv
  refine ⟨?_, ?_, by decide, rfl⟩
  · intro hk
    simp only [hk] at hinv
    obtain ⟨K, hK, hnew, _, e2, _⟩ := hinv
    refine ⟨K, hK, ?_, ?_⟩
    · unfold State.GetKey
      rw [e2, Slice.elems_mk]
      exact getKeyLoop_of_first E (K.ID E) s.Keys.elems [] K rfl hnew
    · intro id hne
      unfold State.GetKey
      rw [e2, Slice.elems_mk]
      exact getKeyLoop_append_other E id s.Keys.elems K hne
  · intro hk
    simp only [hk] at hinv
    obtain ⟨pre, k, post, hdec, hid, _, _, e2, _⟩ := hinv
    rw [hdec] at hu
    refine ⟨?_, ?_⟩
    · unfold State.GetKey
      rw [e2, Slice.elems_mk]
      apply getKeyLoop_error_of_forall
      intro x hx
      rw [← hid]
      exact nodup_ID_rest E pre post k hu x hx
    · intro id hne
      unfold State.GetKey
      rw [e2, Slice.elems_mk, hdec]
      exact getKeyLoop_remove_other E id pre post k (by rw [hid]; exact hne)

/-- Witness for C20: in the sample state with keys `K, K2`, whose KeyIDs are
distinct, removing `K` succeeds, after which looking up `K`'s ID gives
`ErrNoSuchKey` and looking up `K2`'s ID still returns what it did. -/
theorem GetKey_after_key_AUM_witness :
    (stateKK2.Keys.elems.map (Key.ID demoExt)).Nodup ∧
    stateKK2.applyVerifiedAUM demoExt removeK = .ok afterRemoveK ∧
    afterRemoveK.GetKey demoExt removeK.KeyID = .error .ErrNoSuchKey ∧
    afterRemoveK.GetKey demoExt [2] = stateKK2.GetKey demoExt [2] :=
  ⟨by decide, by decide,
   ((GetKey_after_key_AUM demoExt stateKK2 removeK afterRemoveK (by decide) (by decide)).2.1
      rfl).1,
   ((GetKey_after_key_AUM demoExt stateKK2 removeK afterRemoveK (by decide) (by decide)).2.1
      rfl).2 [2] (by decide)⟩

end tka
